import Mathlib

/-!
# zero ring buffer: a shallow embedding and its verified properties

The untyped engine of `include/zero/c/zero_ring_buffer.h` and
`src/zero/c/zero_ring_buffer.c` and the typed wrapper of
`include/zero/cpp/ring_buffer.hpp`, translated function by function.

Modelling conventions.

* `sig_atomic_t` is `int`: 32 bits, two's complement.  A value of that type is
  an `Int` in the range of `is_sig_atomic_t`, and every addition, subtraction
  and multiplication of the source is followed by `wrap`, which brings the
  exact result back into that range the way the machine does.
* C's `%` on signed integers is the truncated remainder `Int.tmod`; it has no
  defined behaviour for a zero divisor and for `INT_MIN % -1`, reported as
  `none`.
* A pointer returned by a staging call is either the null pointer or
  `m_slots + offset`; it is represented by that signed byte offset.
* `abort()` is the result `none` of `zero_ring_buffer_create`.
* The slot bytes that follow the header are a map from byte offsets to bytes;
  the slot array itself is the first `slot_size * slot_count` of them.
-/

namespace Zero

/-- One byte of slot storage (`uint8_t`). -/
abbrev uint8_t := Fin 256

/-- The least `sig_atomic_t`, `INT_MIN`. -/
def SIG_ATOMIC_MIN : Int := -2147483648

/-- The greatest `sig_atomic_t`, `INT_MAX`. -/
def SIG_ATOMIC_MAX : Int := 2147483647

/-- The integer `x` is a value of type `sig_atomic_t`. -/
def is_sig_atomic_t (x : Int) : Prop :=
  SIG_ATOMIC_MIN ≤ x ∧ x ≤ SIG_ATOMIC_MAX

/-- The `sig_atomic_t` that 32-bit two's complement arithmetic yields when the
exact result is `x`. -/
def wrap (x : Int) : Int :=
  (x + 2147483648) % 4294967296 - 2147483648

/-- The header fields of `struct zero_ring_buffer` followed by the slot bytes
that the flexible array member `m_slots` stands for. -/
structure zero_ring_buffer where
  m_initialized : Int
  m_slot_size : Int
  m_slot_count : Int
  m_head : Int
  m_tail : Int
  m_slots : Int → uint8_t

/-- The value of a `void*` returned by a staging call. -/
inductive pointer where
  | null : pointer
  | slot (offset : Int) : pointer
  deriving DecidableEq, Repr

/-- C remainder `a % b` of two `int`s: truncated, undefined when `b = 0` and
for `INT_MIN % -1`. -/
def c_rem (a b : Int) : Option Int :=
  if b = 0 ∨ (a = -2147483648 ∧ b = -1) then none else some (Int.tmod a b)

/-- Source `zero_ring_buffer_attach`: the storage block viewed as a ring buffer. -/
def zero_ring_buffer_attach (storage : zero_ring_buffer) : zero_ring_buffer :=
  storage

/-- Source `zero_ring_buffer_create`; `none` is the call to `abort()`. -/
def zero_ring_buffer_create (storage : zero_ring_buffer) (slot_size slot_count : Int) :
    Option zero_ring_buffer :=
  let ring_buffer := zero_ring_buffer_attach storage
  if ring_buffer.m_initialized = 0 then
    some { ring_buffer with
      m_head := 1
      m_tail := 0
      m_slot_size := slot_size
      m_slot_count := slot_count
      m_initialized := 1 }
  else if ring_buffer.m_slot_size ≠ slot_size ∨ ring_buffer.m_slot_count ≠ slot_count then
    none
  else
    some ring_buffer

/-- Source `zero_ring_buffer_initialized`. -/
def zero_ring_buffer_initialized (ring_buffer : zero_ring_buffer) : Bool :=
  decide (ring_buffer.m_initialized ≠ 0)

/-- Source `zero_ring_buffer_used`. -/
def zero_ring_buffer_used (ring_buffer : zero_ring_buffer) : Int :=
  wrap (wrap (ring_buffer.m_head - ring_buffer.m_tail) - 1)

/-- Source `zero_ring_buffer_available`. -/
def zero_ring_buffer_available (ring_buffer : zero_ring_buffer) : Int :=
  wrap (ring_buffer.m_slot_count - zero_ring_buffer_used ring_buffer)

/-- Source `zero_ring_buffer_size`. -/
def zero_ring_buffer_size (ring_buffer : zero_ring_buffer) : Int :=
  wrap (ring_buffer.m_slot_count - 1)

/-- Source `zero_ring_buffer_empty`. -/
def zero_ring_buffer_empty (ring_buffer : zero_ring_buffer) : Bool :=
  decide (zero_ring_buffer_used ring_buffer = 0)

/-- Source `zero_ring_buffer_full`. -/
def zero_ring_buffer_full (ring_buffer : zero_ring_buffer) : Bool :=
  decide (wrap (ring_buffer.m_head - ring_buffer.m_tail) = ring_buffer.m_slot_count)

/-- Source `zero_ring_buffer_stage_read`; `none` is an undefined `%`. -/
def zero_ring_buffer_stage_read (ring_buffer : zero_ring_buffer) : Option pointer :=
  if !zero_ring_buffer_empty ring_buffer then
    match c_rem (wrap (ring_buffer.m_tail + 1)) ring_buffer.m_slot_count with
    | none => none
    | some tail_index => some (pointer.slot (wrap (tail_index * ring_buffer.m_slot_size)))
  else
    some pointer.null

/-- Source `zero_ring_buffer_stage_write`; `none` is an undefined `%`. -/
def zero_ring_buffer_stage_write (ring_buffer : zero_ring_buffer) : Option pointer :=
  if !zero_ring_buffer_full ring_buffer then
    match c_rem ring_buffer.m_head ring_buffer.m_slot_count with
    | none => none
    | some head_index => some (pointer.slot (wrap (head_index * ring_buffer.m_slot_size)))
  else
    some pointer.null

/-- Source `zero_ring_buffer_commit_read`: the returned flag and the region afterwards. -/
def zero_ring_buffer_commit_read (ring_buffer : zero_ring_buffer) : Bool × zero_ring_buffer :=
  if !zero_ring_buffer_empty ring_buffer then
    (true, { ring_buffer with m_tail := wrap (ring_buffer.m_tail + 1) })
  else
    (false, ring_buffer)

/-- Source `zero_ring_buffer_commit_write`: the returned flag and the region afterwards. -/
def zero_ring_buffer_commit_write (ring_buffer : zero_ring_buffer) : Bool × zero_ring_buffer :=
  if !zero_ring_buffer_full ring_buffer then
    (true, { ring_buffer with m_head := wrap (ring_buffer.m_head + 1) })
  else
    (false, ring_buffer)

/-- Source `zero_ring_buffer_destroy`. -/
def zero_ring_buffer_destroy (ring_buffer : zero_ring_buffer) : zero_ring_buffer :=
  if ring_buffer.m_initialized ≠ 0 then
    { ring_buffer with
      m_initialized := 0
      m_head := wrap (ring_buffer.m_tail + 1) }
  else
    ring_buffer

/-- Source macro `RING_BUFFER_STORAGE_SIZE`; the first argument is the value
of `sizeof(zero_ring_buffer)`.  The product is an `int` product; the sum is
taken in `size_t`, 64 bits wide. -/
def RING_BUFFER_STORAGE_SIZE (sizeof_zero_ring_buffer slot_size slot_count : Int) : Int :=
  (wrap (slot_size * slot_count) % 18446744073709551616 + sizeof_zero_ring_buffer) %
    18446744073709551616

/-! ## The inline functions as calls through the pointer

Every function of the header receives a pointer to the region.  Here each body
is translated once more in state-passing form: a call returns its value
together with the region it leaves in memory, and a call made inside a body
hands its region on to the statements that follow it. -/

/-- Source `zero_ring_buffer_initialized` as a call. -/
def Call.zero_ring_buffer_initialized (ring_buffer : zero_ring_buffer) :
    Bool × zero_ring_buffer :=
  (decide (ring_buffer.m_initialized ≠ 0), ring_buffer)

/-- Source `zero_ring_buffer_used` as a call. -/
def Call.zero_ring_buffer_used (ring_buffer : zero_ring_buffer) : Int × zero_ring_buffer :=
  (wrap (wrap (ring_buffer.m_head - ring_buffer.m_tail) - 1), ring_buffer)

/-- Source `zero_ring_buffer_available` as a call. -/
def Call.zero_ring_buffer_available (ring_buffer : zero_ring_buffer) :
    Int × zero_ring_buffer :=
  let used := Call.zero_ring_buffer_used ring_buffer
  (wrap (used.2.m_slot_count - used.1), used.2)

/-- Source `zero_ring_buffer_size` as a call. -/
def Call.zero_ring_buffer_size (ring_buffer : zero_ring_buffer) : Int × zero_ring_buffer :=
  (wrap (ring_buffer.m_slot_count - 1), ring_buffer)

/-- Source `zero_ring_buffer_empty` as a call. -/
def Call.zero_ring_buffer_empty (ring_buffer : zero_ring_buffer) : Bool × zero_ring_buffer :=
  let used := Call.zero_ring_buffer_used ring_buffer
  (decide (used.1 = 0), used.2)

/-- Source `zero_ring_buffer_full` as a call. -/
def Call.zero_ring_buffer_full (ring_buffer : zero_ring_buffer) : Bool × zero_ring_buffer :=
  (decide (wrap (ring_buffer.m_head - ring_buffer.m_tail) = ring_buffer.m_slot_count),
    ring_buffer)

/-- Source `zero_ring_buffer_stage_read` as a call; `none` is an undefined `%`. -/
def Call.zero_ring_buffer_stage_read (ring_buffer : zero_ring_buffer) :
    Option (pointer × zero_ring_buffer) :=
  let empty := Call.zero_ring_buffer_empty ring_buffer
  if !empty.1 then
    match c_rem (wrap (empty.2.m_tail + 1)) empty.2.m_slot_count with
    | none => none
    | some tail_index => some (pointer.slot (wrap (tail_index * empty.2.m_slot_size)), empty.2)
  else
    some (pointer.null, empty.2)

/-- Source `zero_ring_buffer_stage_write` as a call; `none` is an undefined `%`. -/
def Call.zero_ring_buffer_stage_write (ring_buffer : zero_ring_buffer) :
    Option (pointer × zero_ring_buffer) :=
  let full := Call.zero_ring_buffer_full ring_buffer
  if !full.1 then
    match c_rem full.2.m_head full.2.m_slot_count with
    | none => none
    | some head_index => some (pointer.slot (wrap (head_index * full.2.m_slot_size)), full.2)
  else
    some (pointer.null, full.2)

/-- Source `zero_ring_buffer_commit_read` as a call. -/
def Call.zero_ring_buffer_commit_read (ring_buffer : zero_ring_buffer) :
    Bool × zero_ring_buffer :=
  let empty := Call.zero_ring_buffer_empty ring_buffer
  if !empty.1 then
    (true, { empty.2 with m_tail := wrap (empty.2.m_tail + 1) })
  else
    (false, empty.2)

/-- Source `zero_ring_buffer_commit_write` as a call. -/
def Call.zero_ring_buffer_commit_write (ring_buffer : zero_ring_buffer) :
    Bool × zero_ring_buffer :=
  let full := Call.zero_ring_buffer_full ring_buffer
  if !full.1 then
    (true, { full.2 with m_head := wrap (full.2.m_head + 1) })
  else
    (false, full.2)

/-! ## Callers: sequences of operations on one region -/

/-- The four calls a writer and a reader make on a bound region. -/
inductive Op where
  | stage_read : Op
  | stage_write : Op
  | commit_read : Op
  | commit_write : Op
  deriving DecidableEq, Repr

/-- A region together with the number of `commit_write` and `commit_read`
calls that have returned `true` on it so far. -/
structure Trace where
  region : zero_ring_buffer
  write_commits : Nat
  read_commits : Nat

/-- One call on the region; `none` when the call has no defined behaviour. -/
def Trace.step (t : Trace) : Op → Option Trace
  | Op.stage_read =>
      (Call.zero_ring_buffer_stage_read t.region).map (fun r => { t with region := r.2 })
  | Op.stage_write =>
      (Call.zero_ring_buffer_stage_write t.region).map (fun r => { t with region := r.2 })
  | Op.commit_read =>
      let r := Call.zero_ring_buffer_commit_read t.region
      some { t with region := r.2, read_commits := t.read_commits + (if r.1 then 1 else 0) }
  | Op.commit_write =>
      let r := Call.zero_ring_buffer_commit_write t.region
      some { t with region := r.2, write_commits := t.write_commits + (if r.1 then 1 else 0) }

/-- A finite sequence of calls, left to right. -/
def Trace.run : List Op → Trace → Option Trace
  | [], t => some t
  | op :: ops, t => (t.step op).bind (Trace.run ops)

/-- The trace that starts at a region on which nothing has been committed yet. -/
def Trace.start (ring_buffer : zero_ring_buffer) : Trace :=
  { region := ring_buffer, write_commits := 0, read_commits := 0 }

/-- The region after `zero_ring_buffer_create` on `storage` followed by `ops`. -/
def run_after_create (storage : zero_ring_buffer) (slot_size slot_count : Int)
    (ops : List Op) : Option Trace :=
  (zero_ring_buffer_create storage slot_size slot_count).bind
    (fun ring_buffer => Trace.run ops (Trace.start ring_buffer))

/-- The region after `n` consecutive calls of `zero_ring_buffer_commit_write`. -/
def commit_write_times : Nat → zero_ring_buffer → zero_ring_buffer
  | 0, ring_buffer => ring_buffer
  | n + 1, ring_buffer => commit_write_times n (zero_ring_buffer_commit_write ring_buffer).2

/-- A storage block on which `create` has never run: flag clear, all else zero. -/
def blank_storage : zero_ring_buffer :=
  { m_initialized := 0, m_slot_size := 0, m_slot_count := 0, m_head := 0, m_tail := 0,
    m_slots := fun _ => 0 }

/-! ## The two-phase transfer protocol of the header comment

"First the slot to be read or written to is retrieved directly and then the
user can modify it and commit it to the ring buffer." -/

/-- The caller copies `payload` to `m_slots + offset`. -/
def store (slots : Int → uint8_t) (offset : Int) (payload : List uint8_t) : Int → uint8_t :=
  fun i =>
    if 0 ≤ i - offset ∧ i - offset < payload.length then
      payload.getD (i - offset).toNat 0
    else
      slots i

/-- The caller copies `n` bytes out of `m_slots + offset`. -/
def load (slots : Int → uint8_t) (offset : Int) (n : Nat) : List uint8_t :=
  (List.range n).map (fun (j : Nat) => slots (offset + (j : Int)))

/-- The `m_slot_size` bytes at `m_slots + offset` lie inside the slot array,
which has `m_slot_size * m_slot_count` bytes. -/
def slot_in_array (ring_buffer : zero_ring_buffer) (offset : Int) : Bool :=
  decide (0 ≤ offset ∧
    offset + ring_buffer.m_slot_size ≤ ring_buffer.m_slot_size * ring_buffer.m_slot_count)

/-- A write step: `stage_write`, store the payload in the staged slot,
`commit_write`.  The flag is the result of the commit.  A store outside the
slot array has no defined behaviour. -/
def write_step (ring_buffer : zero_ring_buffer) (payload : List uint8_t) :
    Option (Bool × zero_ring_buffer) :=
  match zero_ring_buffer_stage_write ring_buffer with
  | none => none
  | some pointer.null => some (zero_ring_buffer_commit_write ring_buffer)
  | some (pointer.slot offset) =>
      if slot_in_array ring_buffer offset then
        some (zero_ring_buffer_commit_write
          { ring_buffer with m_slots := store ring_buffer.m_slots offset payload })
      else
        none

/-- A read step: `stage_read`, load the `m_slot_size` bytes of the staged slot,
`commit_read`.  The payload is present when the commit returned `true`.  A
load outside the slot array has no defined behaviour. -/
def read_step (ring_buffer : zero_ring_buffer) :
    Option (Option (List uint8_t) × zero_ring_buffer) :=
  match zero_ring_buffer_stage_read ring_buffer with
  | none => none
  | some pointer.null => some (none, (zero_ring_buffer_commit_read ring_buffer).2)
  | some (pointer.slot offset) =>
      if slot_in_array ring_buffer offset then
        let payload := load ring_buffer.m_slots offset ring_buffer.m_slot_size.toNat
        let r := zero_ring_buffer_commit_read ring_buffer
        some (if r.1 then some payload else none, r.2)
      else
        none

/-- A transfer step of the writer or of the reader. -/
inductive Transfer where
  | write (payload : List uint8_t) : Transfer
  | read : Transfer

/-- A region with the payloads stored by the successful write steps and the
payloads loaded by the successful read steps, both oldest first. -/
structure Log where
  region : zero_ring_buffer
  written : List (List uint8_t)
  read_back : List (List uint8_t)

/-- One transfer step; `none` when a call in it has no defined behaviour. -/
def Log.step (l : Log) : Transfer → Option Log
  | Transfer.write payload =>
      (write_step l.region payload).map (fun r =>
        { l with region := r.2, written := if r.1 then l.written ++ [payload] else l.written })
  | Transfer.read =>
      (read_step l.region).map (fun r =>
        { l with
          region := r.2
          read_back := match r.1 with
            | some payload => l.read_back ++ [payload]
            | none => l.read_back })

/-- A finite interleaving of transfer steps, left to right. -/
def Log.run : List Transfer → Log → Option Log
  | [], l => some l
  | x :: xs, l => (l.step x).bind (Log.run xs)

/-- The transfers `xs` applied after `zero_ring_buffer_create` on `storage`. -/
def transfer_after_create (storage : zero_ring_buffer) (slot_size slot_count : Int)
    (xs : List Transfer) : Option Log :=
  (zero_ring_buffer_create storage slot_size slot_count).bind
    (fun ring_buffer => Log.run xs { region := ring_buffer, written := [], read_back := [] })

/-- Every payload written by `xs` fills exactly `n` bytes. -/
def payloads_fill (n : Nat) : List Transfer → Prop
  | [] => True
  | Transfer.write payload :: xs => payload.length = n ∧ payloads_fill n xs
  | Transfer.read :: xs => payloads_fill n xs

/-- The number of write steps in `xs`. -/
def write_steps : List Transfer → Nat
  | [] => 0
  | Transfer.write _ :: xs => write_steps xs + 1
  | Transfer.read :: xs => write_steps xs

/-- The sequence of `n` transfer cycles: one write step of `payload`, then one
read step. -/
def transfer_cycles (payload : List uint8_t) : Nat → List Transfer
  | 0 => []
  | n + 1 => Transfer.write payload :: Transfer.read :: transfer_cycles payload n

/-- The counters of a region are the wrapped commit counts of its trace, the
head one ahead, and respect the occupancy bound of a buffer with the given
geometry. -/
def Trace.consistent (slot_size slot_count : Int) (t : Trace) : Prop :=
  t.region.m_initialized = 1 ∧
  t.region.m_slot_size = slot_size ∧
  t.region.m_slot_count = slot_count ∧
  t.region.m_head = wrap ((t.write_commits : Int) + 1) ∧
  t.region.m_tail = wrap (t.read_commits : Int) ∧
  t.read_commits ≤ t.write_commits ∧
  (t.write_commits : Int) + 1 - (t.read_commits : Int) ≤ slot_count

/-- The counters of a region are the wrapped commit counts of its trace, the
head one ahead, whatever the geometry of the buffer. -/
def Trace.counted (t : Trace) : Prop :=
  t.region.m_head = wrap ((t.write_commits : Int) + 1) ∧
  t.region.m_tail = wrap (t.read_commits : Int) ∧
  t.read_commits ≤ t.write_commits

/-- The counters of a region agree with the lengths of its log, what was read
is an initial part of what was written, and every written payload that has not
been read yet still sits in its slot. -/
def Log.consistent (slot_size slot_count : Int) (l : Log) : Prop :=
  l.region.m_slot_size = slot_size ∧
  l.region.m_slot_count = slot_count ∧
  l.region.m_head = wrap ((l.written.length : Int) + 1) ∧
  l.region.m_tail = (l.read_back.length : Int) ∧
  l.read_back.length ≤ l.written.length ∧
  (l.written.length : Int) + 1 - (l.read_back.length : Int) ≤ slot_count ∧
  (l.written.length : Int) ≤ 2147483647 ∧
  l.read_back = l.written.take l.read_back.length ∧
  ∀ k : Nat, l.read_back.length ≤ k → k < l.written.length →
    l.written[k]? =
      some (load l.region.m_slots ((((k : Int) + 1) % slot_count) * slot_size) slot_size.toNat)

/-- The concrete scenario of four slots of four bytes: three writes fill the
buffer, one read frees a slot, a fourth write fills it again, three reads
drain it. -/
def scenario : List Transfer :=
  [Transfer.write [1, 1, 1, 1], Transfer.write [2, 2, 2, 2], Transfer.write [3, 3, 3, 3],
   Transfer.read, Transfer.write [4, 4, 4, 4], Transfer.read, Transfer.read, Transfer.read]

/-- A region of four slots of four bytes that holds two unconsumed items. -/
def sample_region : zero_ring_buffer :=
  { blank_storage with
    m_initialized := 1, m_slot_size := 4, m_slot_count := 4, m_head := 3, m_tail := 0 }

/-- A region of four slots of four bytes whose head counter has reached
`INT_MAX`, with one unconsumed item. -/
def late_region : zero_ring_buffer :=
  { blank_storage with
    m_initialized := 1, m_slot_size := 4, m_slot_count := 4,
    m_head := 2147483647, m_tail := 2147483645 }

/-- The sequence of `n` alternating cycles: one write-commit, then one read-commit. -/
def alternating : Nat → List Op
  | 0 => []
  | n + 1 => Op.commit_write :: Op.commit_read :: alternating n

/-! ## The typed wrapper `zero::RingBuffer<Type>` of `ring_buffer.hpp`

The wrapper holds one pointer to a storage block.  Memory maps the address of
a block to the region stored there; the null pointer is `none`. -/

/-- The storage blocks of the process, by address. -/
abbrev Memory := Nat → zero_ring_buffer

/-- Source `class RingBuffer`: its only member is the pointer `m_ring_buffer`. -/
structure RingBuffer where
  m_ring_buffer : Option Nat
  deriving DecidableEq, Repr

/-- Source constructor `RingBuffer()`. -/
def RingBuffer.new : RingBuffer :=
  { m_ring_buffer := none }

/-- Source `RingBuffer::attach`. -/
def RingBuffer.attach (_self : RingBuffer) (storage : Nat) : RingBuffer :=
  { m_ring_buffer := some storage }

/-- Source `RingBuffer::create`, with `sizeof_Type` the value of `sizeof(Type)`;
`none` is the call to `abort()` inside `zero_ring_buffer_create`. -/
def RingBuffer.create (_self : RingBuffer) (memory : Memory) (sizeof_Type : Int)
    (storage : Nat) (slot_count : Int) : Option (RingBuffer × Memory) :=
  (zero_ring_buffer_create (memory storage) sizeof_Type slot_count).map
    (fun ring_buffer => ({ m_ring_buffer := some storage }, Function.update memory storage ring_buffer))

/-- Source `RingBuffer::initialized`. -/
def RingBuffer.initialized (self : RingBuffer) (memory : Memory) : Bool :=
  match self.m_ring_buffer with
  | some p => zero_ring_buffer_initialized (memory p)
  | none => false

/-- Source `RingBuffer::destroy`: the wrapper and the memory afterwards. -/
def RingBuffer.destroy (self : RingBuffer) (memory : Memory) : RingBuffer × Memory :=
  match self.m_ring_buffer with
  | some p =>
      ({ m_ring_buffer := none }, Function.update memory p (zero_ring_buffer_destroy (memory p)))
  | none => (self, memory)

/-- Source destructor `~RingBuffer`: it calls `destroy`. -/
def RingBuffer.destructor (self : RingBuffer) (memory : Memory) : Memory :=
  (self.destroy memory).2

/-- The wrapper and the memory after `n` consecutive calls of `destroy`. -/
def RingBuffer.destroy_times : Nat → RingBuffer → Memory → RingBuffer × Memory
  | 0, self, memory => (self, memory)
  | n + 1, self, memory =>
      RingBuffer.destroy_times n (self.destroy memory).1 (self.destroy memory).2

/-- A memory in which every block is blank except block 7, which holds `sample_region`. -/
def sample_memory : Memory :=
  Function.update (fun _ => blank_storage) 7 sample_region

/-! ## Shared lemmas -/

theorem wrap_of_range (x : Int) (h0 : -2147483648 ≤ x) (h1 : x ≤ 2147483647) : wrap x = x := by
  simp only [wrap]
  omega

theorem wrap_range (x : Int) : -2147483648 ≤ wrap x ∧ wrap x ≤ 2147483647 := by
  simp only [wrap]
  omega

theorem wrap_spec (x : Int) :
    ∃ k : Int, wrap x = x + k * 4294967296 ∧ -2147483648 ≤ wrap x ∧ wrap x ≤ 2147483647 := by
  refine ⟨-((x + 2147483648) / 4294967296), ?_, ?_, ?_⟩ <;> simp only [wrap] <;> omega

theorem wrap_unique (x y k : Int) (h : x = y + k * 4294967296)
    (h0 : -2147483648 ≤ y) (h1 : y ≤ 2147483647) : wrap x = y := by
  subst h
  simp only [wrap]
  omega

theorem wrap_shift (x k : Int) : wrap (x + k * 4294967296) = wrap x := by
  obtain ⟨j, hj, h0, h1⟩ := wrap_spec x
  exact wrap_unique _ _ (k - j) (by rw [hj]; ring) h0 h1

theorem wrap_wrap (x : Int) : wrap (wrap x) = wrap x :=
  wrap_of_range _ (wrap_range x).1 (wrap_range x).2

theorem wrap_add_wrap_left (a b : Int) : wrap (wrap a + b) = wrap (a + b) := by
  obtain ⟨k, hk, _, _⟩ := wrap_spec a
  rw [hk, show a + k * 4294967296 + b = a + b + k * 4294967296 by ring, wrap_shift]

theorem wrap_add_wrap_right (a b : Int) : wrap (a + wrap b) = wrap (a + b) := by
  rw [add_comm, wrap_add_wrap_left, add_comm]

theorem wrap_sub_wrap_left (a b : Int) : wrap (wrap a - b) = wrap (a - b) := by
  rw [sub_eq_add_neg, wrap_add_wrap_left, ← sub_eq_add_neg]

theorem wrap_sub_wrap_right (a b : Int) : wrap (a - wrap b) = wrap (a - b) := by
  obtain ⟨k, hk, _, _⟩ := wrap_spec b
  rw [hk, show a - (b + k * 4294967296) = a - b + (-k) * 4294967296 by ring, wrap_shift]

theorem create_uninitialised (storage : zero_ring_buffer) (slot_size slot_count : Int)
    (h : storage.m_initialized = 0) :
    zero_ring_buffer_create storage slot_size slot_count =
      some { storage with
        m_head := 1
        m_tail := 0
        m_slot_size := slot_size
        m_slot_count := slot_count
        m_initialized := 1 } := by
  simp [zero_ring_buffer_create, zero_ring_buffer_attach, h]

theorem c_rem_of_pos (a b : Int) (h : 1 ≤ b) : c_rem a b = some (Int.tmod a b) := by
  have h1 : ¬ (b = 0) := by omega
  have h2 : ¬ (b = -1) := by omega
  simp [c_rem, h1, h2]

theorem call_initialized (ring_buffer : zero_ring_buffer) :
    Call.zero_ring_buffer_initialized ring_buffer =
      (zero_ring_buffer_initialized ring_buffer, ring_buffer) := rfl

theorem call_used (ring_buffer : zero_ring_buffer) :
    Call.zero_ring_buffer_used ring_buffer =
      (zero_ring_buffer_used ring_buffer, ring_buffer) := rfl

theorem call_available (ring_buffer : zero_ring_buffer) :
    Call.zero_ring_buffer_available ring_buffer =
      (zero_ring_buffer_available ring_buffer, ring_buffer) := rfl

theorem call_size (ring_buffer : zero_ring_buffer) :
    Call.zero_ring_buffer_size ring_buffer =
      (zero_ring_buffer_size ring_buffer, ring_buffer) := rfl

theorem call_empty (ring_buffer : zero_ring_buffer) :
    Call.zero_ring_buffer_empty ring_buffer =
      (zero_ring_buffer_empty ring_buffer, ring_buffer) := rfl

theorem call_full (ring_buffer : zero_ring_buffer) :
    Call.zero_ring_buffer_full ring_buffer =
      (zero_ring_buffer_full ring_buffer, ring_buffer) := rfl

theorem call_stage_read (ring_buffer : zero_ring_buffer) :
    Call.zero_ring_buffer_stage_read ring_buffer =
      (zero_ring_buffer_stage_read ring_buffer).map (fun p => (p, ring_buffer)) := by
  simp only [Call.zero_ring_buffer_stage_read, call_empty, zero_ring_buffer_stage_read]
  split
  · split <;> simp_all
  · rfl

theorem call_stage_write (ring_buffer : zero_ring_buffer) :
    Call.zero_ring_buffer_stage_write ring_buffer =
      (zero_ring_buffer_stage_write ring_buffer).map (fun p => (p, ring_buffer)) := by
  simp only [Call.zero_ring_buffer_stage_write, call_full, zero_ring_buffer_stage_write]
  split
  · split <;> simp_all
  · rfl

theorem call_commit_read (ring_buffer : zero_ring_buffer) :
    Call.zero_ring_buffer_commit_read ring_buffer =
      zero_ring_buffer_commit_read ring_buffer := rfl

theorem call_commit_write (ring_buffer : zero_ring_buffer) :
    Call.zero_ring_buffer_commit_write ring_buffer =
      zero_ring_buffer_commit_write ring_buffer := rfl

theorem step_stage_read (t : Trace) :
    t.step Op.stage_read = (zero_ring_buffer_stage_read t.region).map (fun _ => t) := by
  simp only [Trace.step, call_stage_read, Option.map_map]
  rfl

theorem step_stage_write (t : Trace) :
    t.step Op.stage_write = (zero_ring_buffer_stage_write t.region).map (fun _ => t) := by
  simp only [Trace.step, call_stage_write, Option.map_map]
  rfl

theorem step_commit_read (t : Trace) :
    t.step Op.commit_read =
      some { t with
        region := (zero_ring_buffer_commit_read t.region).2
        read_commits := t.read_commits +
          (if (zero_ring_buffer_commit_read t.region).1 then 1 else 0) } := rfl

theorem step_commit_write (t : Trace) :
    t.step Op.commit_write =
      some { t with
        region := (zero_ring_buffer_commit_write t.region).2
        write_commits := t.write_commits +
          (if (zero_ring_buffer_commit_write t.region).1 then 1 else 0) } := rfl

theorem full_of_consistent (slot_size slot_count : Int) (hr : slot_count ≤ 2147483647)
    (t : Trace) (ht : Trace.consistent slot_size slot_count t) :
    wrap (t.region.m_head - t.region.m_tail) =
      (t.write_commits : Int) + 1 - (t.read_commits : Int) := by
  obtain ⟨_, _, _, hh, htl, hle, hub⟩ := ht
  rw [hh, htl, wrap_sub_wrap_left, wrap_sub_wrap_right]
  exact wrap_of_range _ (by omega) (by omega)

theorem start_consistent (storage : zero_ring_buffer) (slot_size slot_count : Int)
    (hc : 1 ≤ slot_count) :
    Trace.consistent slot_size slot_count
      (Trace.start { storage with
        m_head := 1
        m_tail := 0
        m_slot_size := slot_size
        m_slot_count := slot_count
        m_initialized := 1 }) := by
  refine ⟨rfl, rfl, rfl, ?_, ?_, le_refl _, ?_⟩
  · show (1 : Int) = wrap (((0 : Nat) : Int) + 1)
    exact (wrap_of_range _ (by omega) (by omega)).symm
  · show (0 : Int) = wrap ((0 : Nat) : Int)
    exact (wrap_of_range _ (by omega) (by omega)).symm
  · show (((0 : Nat) : Int) + 1 - ((0 : Nat) : Int)) ≤ slot_count
    omega

theorem step_consistent (slot_size slot_count : Int) (hc : 1 ≤ slot_count)
    (hr : slot_count ≤ 2147483647) (t : Trace)
    (ht : Trace.consistent slot_size slot_count t) (op : Op) :
    ∃ t', t.step op = some t' ∧ Trace.consistent slot_size slot_count t' ∧
      t'.write_commits ≤ t.write_commits + 1 ∧ t.write_commits ≤ t'.write_commits ∧
      t.read_commits ≤ t'.read_commits := by
  have hd := full_of_consistent slot_size slot_count hr t ht
  obtain ⟨hi, hss, hsc, hh, htl, hle, hub⟩ := ht
  have hpos : 1 ≤ t.region.m_slot_count := by omega
  cases op with
  | stage_read =>
      refine ⟨t, ?_, ⟨hi, hss, hsc, hh, htl, hle, hub⟩, by omega, le_refl _, le_refl _⟩
      simp only [step_stage_read, zero_ring_buffer_stage_read, c_rem_of_pos _ _ hpos]
      split <;> rfl
  | stage_write =>
      refine ⟨t, ?_, ⟨hi, hss, hsc, hh, htl, hle, hub⟩, by omega, le_refl _, le_refl _⟩
      simp only [step_stage_write, zero_ring_buffer_stage_write, c_rem_of_pos _ _ hpos]
      split <;> rfl
  | commit_read =>
      refine ⟨_, step_commit_read t, ?_⟩
      by_cases he : zero_ring_buffer_empty t.region = true
      · simp only [zero_ring_buffer_commit_read, he, Bool.not_true]
        exact ⟨⟨hi, hss, hsc, hh, by simpa using htl, by simpa using hle, by simpa using hub⟩,
          by simp, by simp, by simp⟩
      · have he' : zero_ring_buffer_empty t.region = false := by simpa using he
        have hu : ¬ (wrap (wrap (t.region.m_head - t.region.m_tail) - 1) = 0) := by
          simpa [zero_ring_buffer_empty, zero_ring_buffer_used] using he
        rw [hd] at hu
        have hlt : t.read_commits < t.write_commits := by
          rw [wrap_of_range _ (by omega) (by omega)] at hu; omega
        simp only [zero_ring_buffer_commit_read, he', Bool.not_false, if_true]
        refine ⟨⟨hi, hss, hsc, hh, ?_, ?_, ?_⟩, by simp, by simp, by simp⟩
        · show wrap (t.region.m_tail + 1) = wrap ((t.read_commits + 1 : Nat) : Int)
          rw [htl, wrap_add_wrap_left]; push_cast; rfl
        · show t.read_commits + 1 ≤ t.write_commits
          omega
        · show (t.write_commits : Int) + 1 - ((t.read_commits + 1 : Nat) : Int) ≤ slot_count
          push_cast; omega
  | commit_write =>
      refine ⟨_, step_commit_write t, ?_⟩
      by_cases hf : zero_ring_buffer_full t.region = true
      · simp only [zero_ring_buffer_commit_write, hf, Bool.not_true]
        exact ⟨⟨hi, hss, hsc, by simpa using hh, htl, by simpa using hle, by simpa using hub⟩,
          by simp, by simp, by simp⟩
      · have hf' : zero_ring_buffer_full t.region = false := by simpa using hf
        have hu : ¬ (wrap (t.region.m_head - t.region.m_tail) = t.region.m_slot_count) := by
          simpa [zero_ring_buffer_full] using hf
        rw [hd] at hu
        simp only [zero_ring_buffer_commit_write, hf', Bool.not_false, if_true]
        refine ⟨⟨hi, hss, hsc, ?_, htl, ?_, ?_⟩, by simp, by simp, by simp⟩
        · show wrap (t.region.m_head + 1) = wrap (((t.write_commits + 1 : Nat) : Int) + 1)
          rw [hh, wrap_add_wrap_left]; push_cast; rfl
        · show t.read_commits ≤ t.write_commits + 1
          omega
        · show ((t.write_commits + 1 : Nat) : Int) + 1 - (t.read_commits : Int) ≤ slot_count
          push_cast; omega

theorem run_consistent (slot_size slot_count : Int) (hc : 1 ≤ slot_count)
    (hr : slot_count ≤ 2147483647) (ops : List Op) :
    ∀ t : Trace, Trace.consistent slot_size slot_count t →
      ∃ t', Trace.run ops t = some t' ∧ Trace.consistent slot_size slot_count t' := by
  induction ops with
  | nil => intro t ht; exact ⟨t, rfl, ht⟩
  | cons op ops ih =>
      intro t ht
      obtain ⟨t1, h1, hc1, _⟩ := step_consistent slot_size slot_count hc hr t ht op
      obtain ⟨t2, h2, hc2⟩ := ih t1 hc1
      exact ⟨t2, by simp [Trace.run, h1, h2], hc2⟩

theorem run_after_create_consistent (storage : zero_ring_buffer) (slot_size slot_count : Int)
    (hu : storage.m_initialized = 0) (hc : 1 ≤ slot_count) (hr : slot_count ≤ 2147483647)
    (ops : List Op) :
    ∃ t, run_after_create storage slot_size slot_count ops = some t ∧
      Trace.consistent slot_size slot_count t := by
  obtain ⟨t, h, ht⟩ := run_consistent slot_size slot_count hc hr ops _
    (start_consistent storage slot_size slot_count hc)
  exact ⟨t, by simp [run_after_create, create_uninitialised storage _ _ hu, h], ht⟩

theorem load_length (slots : Int → uint8_t) (offset : Int) (n : Nat) :
    (load slots offset n).length = n := by
  simp [load]

theorem load_store_same (slots : Int → uint8_t) (offset : Int) (payload : List uint8_t) :
    load (store slots offset payload) offset payload.length = payload := by
  apply List.ext_getElem
  · simp [load]
  · intro i h1 h2
    simp [load, store]
    have : i < payload.length := h2
    simp [this]

theorem load_store_apart (slots : Int → uint8_t) (offset other : Int) (payload : List uint8_t)
    (n : Nat) (h : other + (n : Int) ≤ offset ∨ offset + (payload.length : Int) ≤ other) :
    load (store slots offset payload) other n = load slots other n := by
  apply List.ext_getElem
  · simp [load]
  · intro i h1 h2
    have hi : i < n := by simpa [load] using h2
    simp only [load, List.getElem_map, List.getElem_range, store]
    rw [if_neg]
    omega

theorem slot_index_ne (a b c : Int) (h1 : b < a) (h2 : a - b < c) : a % c ≠ b % c := by
  intro h
  have hd : (a - b) % c = 0 := Int.emod_eq_emod_iff_emod_sub_eq_zero.mp h
  have : (a - b) % c = a - b := Int.emod_eq_of_lt (by omega) h2
  omega

theorem slots_apart (i j size : Int) (hs : 0 < size) (h : i ≠ j) :
    i * size + size ≤ j * size ∨ j * size + size ≤ i * size := by
  rcases lt_or_gt_of_ne h with hlt | hgt
  · left
    have : (i + 1) * size ≤ j * size := Int.mul_le_mul_of_nonneg_right (by omega) (le_of_lt hs)
    linarith
  · right
    have : (j + 1) * size ≤ i * size := Int.mul_le_mul_of_nonneg_right (by omega) (le_of_lt hs)
    linarith

theorem slot_inside (index slot_size slot_count : Int) (hs : 0 < slot_size)
    (h0 : 0 ≤ index) (h1 : index < slot_count) :
    0 ≤ index * slot_size ∧ index * slot_size + slot_size ≤ slot_size * slot_count := by
  constructor
  · exact Int.mul_nonneg h0 (le_of_lt hs)
  · have h : (index + 1) * slot_size ≤ slot_count * slot_size :=
      Int.mul_le_mul_of_nonneg_right (by omega) (le_of_lt hs)
    linarith

theorem count_le_product (slot_size slot_count : Int) (hs : 0 < slot_size)
    (hc : 0 ≤ slot_count) : slot_count ≤ slot_size * slot_count := by
  have h : 1 * slot_count ≤ slot_size * slot_count :=
    Int.mul_le_mul_of_nonneg_right (by omega) hc
  linarith

/-- Where the slot of counter value `c` is staged when nothing overflows: the C
remainder is the mathematical one, the product fits an `int`, and the slot
lies in the slot array. -/
theorem staged_offset (c slot_size slot_count : Int) (hs : 0 < slot_size)
    (hc : 1 ≤ slot_count) (hp : slot_size * slot_count ≤ 2147483647) (h0 : 0 ≤ c) :
    c_rem c slot_count = some (c % slot_count) ∧
    0 ≤ c % slot_count ∧ c % slot_count < slot_count ∧
    wrap (c % slot_count * slot_size) = c % slot_count * slot_size ∧
    0 ≤ c % slot_count * slot_size ∧
    c % slot_count * slot_size + slot_size ≤ slot_size * slot_count := by
  have hi0 : 0 ≤ c % slot_count := Int.emod_nonneg _ (by omega)
  have hi1 : c % slot_count < slot_count := Int.emod_lt_of_pos _ (by omega)
  obtain ⟨ha, hb⟩ := slot_inside _ slot_size slot_count hs hi0 hi1
  refine ⟨?_, hi0, hi1, wrap_of_range _ (by omega) (by omega), ha, hb⟩
  rw [c_rem_of_pos _ _ hc, Int.tmod_eq_emod h0 (by omega)]

theorem write_step_full (ring_buffer : zero_ring_buffer) (payload : List uint8_t)
    (h : zero_ring_buffer_full ring_buffer = true) :
    write_step ring_buffer payload = some (false, ring_buffer) := by
  simp [write_step, zero_ring_buffer_stage_write, zero_ring_buffer_commit_write, h]

theorem write_step_not_full (ring_buffer : zero_ring_buffer) (payload : List uint8_t)
    (index : Int) (h : zero_ring_buffer_full ring_buffer = false)
    (hi : c_rem ring_buffer.m_head ring_buffer.m_slot_count = some index)
    (hb : slot_in_array ring_buffer (wrap (index * ring_buffer.m_slot_size)) = true) :
    write_step ring_buffer payload =
      some (true, { ring_buffer with
        m_slots := store ring_buffer.m_slots (wrap (index * ring_buffer.m_slot_size)) payload
        m_head := wrap (ring_buffer.m_head + 1) }) := by
  have h2 : zero_ring_buffer_full { ring_buffer with
      m_slots := store ring_buffer.m_slots (wrap (index * ring_buffer.m_slot_size))
        payload } = false := h
  simp [write_step, zero_ring_buffer_stage_write, zero_ring_buffer_commit_write, h, h2, hi, hb]

theorem read_step_empty (ring_buffer : zero_ring_buffer)
    (h : zero_ring_buffer_empty ring_buffer = true) :
    read_step ring_buffer = some (none, ring_buffer) := by
  simp [read_step, zero_ring_buffer_stage_read, zero_ring_buffer_commit_read, h]

theorem read_step_not_empty (ring_buffer : zero_ring_buffer) (index : Int)
    (h : zero_ring_buffer_empty ring_buffer = false)
    (hi : c_rem (wrap (ring_buffer.m_tail + 1)) ring_buffer.m_slot_count = some index)
    (hb : slot_in_array ring_buffer (wrap (index * ring_buffer.m_slot_size)) = true) :
    read_step ring_buffer =
      some (some (load ring_buffer.m_slots (wrap (index * ring_buffer.m_slot_size))
          ring_buffer.m_slot_size.toNat),
        { ring_buffer with m_tail := wrap (ring_buffer.m_tail + 1) }) := by
  simp [read_step, zero_ring_buffer_stage_read, zero_ring_buffer_commit_read, h, hi, hb]

theorem occupancy_of_log (slot_size slot_count : Int) (hr : slot_count ≤ 2147483647)
    (l : Log) (hl : Log.consistent slot_size slot_count l) :
    wrap (l.region.m_head - l.region.m_tail) =
      (l.written.length : Int) + 1 - (l.read_back.length : Int) := by
  obtain ⟨_, _, hh, htl, hle, hub, _, _, _⟩ := hl
  rw [hh, htl, wrap_sub_wrap_left]
  exact wrap_of_range _ (by omega) (by omega)

theorem log_write_full (l : Log) (payload : List uint8_t)
    (hf : zero_ring_buffer_full l.region = true) :
    l.step (Transfer.write payload) = some l := by
  simp [Log.step, write_step_full _ _ hf]

theorem log_write_ok (slot_size slot_count : Int) (hs : 0 < slot_size)
    (hc : 2 ≤ slot_count) (hp : slot_size * slot_count ≤ 2147483647) (l : Log)
    (hl : Log.consistent slot_size slot_count l)
    (payload : List uint8_t) (hlen : payload.length = slot_size.toNat)
    (hw : (l.written.length : Int) < 2147483647)
    (hf : zero_ring_buffer_full l.region = false) :
    ∃ l', l.step (Transfer.write payload) = some l' ∧
      Log.consistent slot_size slot_count l' ∧
      l'.written = l.written ++ [payload] ∧ l'.read_back = l.read_back := by
  have hr : slot_count ≤ 2147483647 := by
    have := count_le_product slot_size slot_count hs (by omega)
    omega
  have hd := occupancy_of_log slot_size slot_count hr l hl
  obtain ⟨hss, hsc, hh, htl, hle, hub, hW, hpre, hmem⟩ := hl
  have hnf : ¬ (wrap (l.region.m_head - l.region.m_tail) = l.region.m_slot_count) := by
    simpa [zero_ring_buffer_full] using hf
  rw [hd, hsc] at hnf
  have hhead : l.region.m_head = (l.written.length : Int) + 1 := by
    rw [hh]; exact wrap_of_range _ (by omega) (by omega)
  clear hh hd
  obtain ⟨hrem, hi0, hi1, hwrap, ho0, ho1⟩ :=
    staged_offset ((l.written.length : Int) + 1) slot_size slot_count hs (by omega) hp (by omega)
  have hidx : c_rem l.region.m_head l.region.m_slot_count =
      some (((l.written.length : Int) + 1) % slot_count) := by
    rw [hhead, hsc]; exact hrem
  have hb : slot_in_array l.region
      (wrap ((((l.written.length : Int) + 1) % slot_count) * l.region.m_slot_size)) = true := by
    simp only [slot_in_array, hss, hsc, hwrap, decide_eq_true_eq]
    exact ⟨ho0, ho1⟩
  refine ⟨⟨{ l.region with
      m_slots := store l.region.m_slots
        (wrap ((((l.written.length : Int) + 1) % slot_count) * l.region.m_slot_size)) payload
      m_head := wrap (l.region.m_head + 1) }, l.written ++ [payload], l.read_back⟩,
    (by simp only [Log.step, write_step_not_full _ _ _ hf hidx hb, Option.map_some']; rfl),
    ?_, rfl, rfl⟩
  refine ⟨hss, hsc, ?_, htl, ?_, ?_, ?_, ?_, ?_⟩
  · show wrap (l.region.m_head + 1) = wrap (((l.written ++ [payload]).length : Int) + 1)
    rw [hhead]; simp
  · show l.read_back.length ≤ (l.written ++ [payload]).length
    simp; omega
  · show ((l.written ++ [payload]).length : Int) + 1 - (l.read_back.length : Int) ≤ slot_count
    simp; omega
  · show ((l.written ++ [payload]).length : Int) ≤ 2147483647
    simp; omega
  · show l.read_back = (l.written ++ [payload]).take l.read_back.length
    rw [List.take_append_of_le_length hle]
    exact hpre
  · intro k hk1 hk2
    replace hk1 : l.read_back.length ≤ k := hk1
    replace hk2 : k < (l.written ++ [payload]).length := hk2
    show (l.written ++ [payload])[k]? = some (load (store l.region.m_slots _ payload) _ _)
    rw [hss, hwrap]
    have hk3 : k ≤ l.written.length := by
      simp at hk2; omega
    rcases Nat.lt_or_eq_of_le hk3 with hlt | heq
    · rw [List.getElem?_append_left hlt, hmem k hk1 hlt]
      congr 1
      symm
      apply load_store_apart
      rw [hlen, Int.toNat_of_nonneg (le_of_lt hs)]
      have hne : ((l.written.length : Int) + 1) % slot_count ≠ ((k : Int) + 1) % slot_count :=
        slot_index_ne _ _ _ (by omega) (by omega)
      have := slots_apart _ _ slot_size hs hne
      omega
    · subst heq
      rw [List.getElem?_append_right (le_refl _)]
      simp only [Nat.sub_self, List.getElem?_cons_zero]
      congr 1
      rw [← hlen]
      exact (load_store_same _ _ _).symm

theorem log_read_empty (l : Log) (he : zero_ring_buffer_empty l.region = true) :
    l.step Transfer.read = some l := by
  simp [Log.step, read_step_empty _ he]

theorem log_read_ok (slot_size slot_count : Int) (hs : 0 < slot_size)
    (hc : 2 ≤ slot_count) (hp : slot_size * slot_count ≤ 2147483647) (l : Log)
    (hl : Log.consistent slot_size slot_count l)
    (he : zero_ring_buffer_empty l.region = false) :
    ∃ l' payload, l.step Transfer.read = some l' ∧
      Log.consistent slot_size slot_count l' ∧
      l'.written = l.written ∧ l'.read_back = l.read_back ++ [payload] := by
  have hr : slot_count ≤ 2147483647 := by
    have := count_le_product slot_size slot_count hs (by omega)
    omega
  have hd := occupancy_of_log slot_size slot_count hr l hl
  obtain ⟨hss, hsc, hh, htl, hle, hub, hW, hpre, hmem⟩ := hl
  have hne : ¬ (wrap (wrap (l.region.m_head - l.region.m_tail) - 1) = 0) := by
    simpa [zero_ring_buffer_empty, zero_ring_buffer_used] using he
  rw [hd, wrap_of_range _ (by omega) (by omega)] at hne
  have hlt : l.read_back.length < l.written.length := by omega
  have htail : wrap (l.region.m_tail + 1) = (l.read_back.length : Int) + 1 := by
    rw [htl]; exact wrap_of_range _ (by omega) (by omega)
  clear hd
  obtain ⟨hrem, hi0, hi1, hwrap, ho0, ho1⟩ :=
    staged_offset ((l.read_back.length : Int) + 1) slot_size slot_count hs (by omega) hp
      (by omega)
  have hidx : c_rem (wrap (l.region.m_tail + 1)) l.region.m_slot_count =
      some (((l.read_back.length : Int) + 1) % slot_count) := by
    rw [htail, hsc]; exact hrem
  have hb : slot_in_array l.region
      (wrap ((((l.read_back.length : Int) + 1) % slot_count) * l.region.m_slot_size)) =
        true := by
    simp only [slot_in_array, hss, hsc, hwrap, decide_eq_true_eq]
    exact ⟨ho0, ho1⟩
  have hget := hmem l.read_back.length (le_refl _) hlt
  refine ⟨⟨{ l.region with m_tail := wrap (l.region.m_tail + 1) }, l.written,
      l.read_back ++ [load l.region.m_slots
        (wrap ((((l.read_back.length : Int) + 1) % slot_count) * l.region.m_slot_size))
        l.region.m_slot_size.toNat]⟩, _,
    (by simp only [Log.step, read_step_not_empty _ _ he hidx hb, Option.map_some']),
    ?_, rfl, rfl⟩
  refine ⟨hss, hsc, hh, ?_, ?_, ?_, hW, ?_, ?_⟩
  · show wrap (l.region.m_tail + 1) = ((l.read_back ++ [_]).length : Int)
    rw [htail]; simp
  · show (l.read_back ++ [_]).length ≤ l.written.length
    simp; omega
  · show (l.written.length : Int) + 1 - ((l.read_back ++ [_]).length : Int) ≤ slot_count
    simp; omega
  · show l.read_back ++ [load l.region.m_slots _ _] =
      l.written.take (l.read_back ++ [load l.region.m_slots _ _]).length
    rw [hss, hwrap, List.length_append, List.length_singleton, List.take_succ, ← hpre, hget]
    rfl
  · intro k hk1 hk2
    replace hk1 : (l.read_back ++ [load l.region.m_slots
      (wrap ((((l.read_back.length : Int) + 1) % slot_count) * l.region.m_slot_size))
      l.region.m_slot_size.toNat]).length ≤ k := hk1
    have hk1' : l.read_back.length + 1 ≤ k := by simpa using hk1
    exact hmem k (by omega) hk2

theorem log_run_consistent (slot_size slot_count : Int) (hs : 0 < slot_size)
    (hc : 2 ≤ slot_count) (hp : slot_size * slot_count ≤ 2147483647) (xs : List Transfer) :
    ∀ l : Log, payloads_fill slot_size.toNat xs → Log.consistent slot_size slot_count l →
      (l.written.length : Int) + (write_steps xs : Int) ≤ 2147483647 →
      ∃ l', Log.run xs l = some l' ∧ Log.consistent slot_size slot_count l' := by
  induction xs with
  | nil => intro l _ hl _; exact ⟨l, rfl, hl⟩
  | cons x xs ih =>
      intro l hfill hl hbud
      cases x with
      | write payload =>
          have hbud' : (l.written.length : Int) + ((write_steps xs : Int) + 1) ≤ 2147483647 := by
            simpa [write_steps] using hbud
          by_cases hf : zero_ring_buffer_full l.region = true
          · obtain ⟨l2, h2, hc2⟩ := ih l hfill.2 hl (by omega)
            exact ⟨l2, by simp [Log.run, log_write_full l payload hf, h2], hc2⟩
          · obtain ⟨l1, h1, hc1, hw1, _⟩ := log_write_ok slot_size slot_count hs hc hp l hl
              payload hfill.1 (by omega) (by simpa using hf)
            obtain ⟨l2, h2, hc2⟩ := ih l1 hfill.2 hc1 (by rw [hw1]; simp; omega)
            exact ⟨l2, by simp [Log.run, h1, h2], hc2⟩
      | read =>
          have hbud' : (l.written.length : Int) + (write_steps xs : Int) ≤ 2147483647 := by
            simpa [write_steps] using hbud
          by_cases he : zero_ring_buffer_empty l.region = true
          · obtain ⟨l2, h2, hc2⟩ := ih l hfill hl hbud'
            exact ⟨l2, by simp [Log.run, log_read_empty l he, h2], hc2⟩
          · obtain ⟨l1, _, h1, hc1, hw1, _⟩ := log_read_ok slot_size slot_count hs hc hp l hl
              (by simpa using he)
            obtain ⟨l2, h2, hc2⟩ := ih l1 hfill hc1 (by rw [hw1]; exact hbud')
            exact ⟨l2, by simp [Log.run, h1, h2], hc2⟩

theorem log_start_consistent (storage : zero_ring_buffer) (slot_size slot_count : Int)
    (hc : 2 ≤ slot_count) :
    Log.consistent slot_size slot_count
      { region := { storage with
          m_head := 1
          m_tail := 0
          m_slot_size := slot_size
          m_slot_count := slot_count
          m_initialized := 1 },
        written := [], read_back := [] } := by
  refine ⟨rfl, rfl, ?_, rfl, le_refl _, ?_, ?_, rfl, ?_⟩
  · show (1 : Int) = wrap ((([] : List (List uint8_t)).length : Int) + 1)
    exact (wrap_of_range _ (by simp) (by simp)).symm
  · simp; omega
  · simp
  · intro k _ hk; simp at hk

theorem log_full_false (slot_size slot_count : Int) (hr : slot_count ≤ 2147483647) (l : Log)
    (hl : Log.consistent slot_size slot_count l)
    (h : (l.written.length : Int) + 1 - (l.read_back.length : Int) ≠ slot_count) :
    zero_ring_buffer_full l.region = false := by
  have hd := occupancy_of_log slot_size slot_count hr l hl
  simp only [zero_ring_buffer_full, decide_eq_false_iff_not, hd, hl.2.1]
  exact h

theorem log_empty_false (slot_size slot_count : Int) (hr : slot_count ≤ 2147483647) (l : Log)
    (hl : Log.consistent slot_size slot_count l)
    (h : l.read_back.length < l.written.length) :
    zero_ring_buffer_empty l.region = false := by
  have hd := occupancy_of_log slot_size slot_count hr l hl
  obtain ⟨_, _, _, _, hle, hub, hW, _, _⟩ := hl
  simp only [zero_ring_buffer_empty, zero_ring_buffer_used, decide_eq_false_iff_not, hd]
  rw [wrap_of_range _ (by omega) (by omega)]
  omega

theorem log_run_append (xs ys : List Transfer) :
    ∀ l : Log, Log.run (xs ++ ys) l = (Log.run xs l).bind (Log.run ys) := by
  induction xs with
  | nil => intro l; rfl
  | cons x xs ih =>
      intro l
      cases h : l.step x with
      | none => simp [Log.run, h]
      | some l1 => simp [Log.run, h, ih l1]

theorem log_cycles (slot_size slot_count : Int) (hs : 0 < slot_size) (hc : 2 ≤ slot_count)
    (hp : slot_size * slot_count ≤ 2147483647) (payload : List uint8_t)
    (hlen : payload.length = slot_size.toNat) (n : Nat) :
    ∀ l : Log, Log.consistent slot_size slot_count l →
      l.written.length = l.read_back.length →
      (l.written.length : Int) + (n : Int) ≤ 2147483647 →
      ∃ l', Log.run (transfer_cycles payload n) l = some l' ∧
        Log.consistent slot_size slot_count l' ∧
        l'.written.length = l.written.length + n ∧
        l'.read_back.length = l.read_back.length + n := by
  have hr : slot_count ≤ 2147483647 := by
    have := count_le_product slot_size slot_count hs (by omega)
    omega
  induction n with
  | zero => intro l hl _ _; exact ⟨l, rfl, hl, rfl, rfl⟩
  | succ n ih =>
      intro l hl heq hbud
      have hf := log_full_false slot_size slot_count hr l hl (by omega)
      obtain ⟨l1, h1, hc1, hw1, hr1⟩ := log_write_ok slot_size slot_count hs hc hp l hl
        payload hlen (by push_cast at hbud; omega) hf
      have hlen1 : l1.written.length = l.written.length + 1 := by rw [hw1]; simp
      have he := log_empty_false slot_size slot_count hr l1 hc1 (by rw [hr1, hlen1]; omega)
      obtain ⟨l2, q, h2, hc2, hw2, hr2⟩ := log_read_ok slot_size slot_count hs hc hp l1 hc1 he
      have hlen2 : l2.written.length = l.written.length + 1 := by rw [hw2, hlen1]
      have hlen2' : l2.read_back.length = l.read_back.length + 1 := by rw [hr2, hr1]; simp
      obtain ⟨l3, h3, hc3, hw3, hr3⟩ := ih l2 hc2 (by omega) (by push_cast at hbud; omega)
      refine ⟨l3, by simp [transfer_cycles, Log.run, h1, h2, h3], hc3, by omega, by omega⟩

/-- C1, amended. FIFO round trip within the range of `int`: after
`zero_ring_buffer_create` on an uninitialised region with `slot_size > 0`,
`slot_count >= 2` and `slot_size * slot_count <= INT_MAX`, every finite
interleaving of read steps and of at most `INT_MAX` write steps (with payloads
of exactly `slot_size` bytes) runs to completion, every slot it touches lies in
the slot array, and the payload loaded by the k-th successful read step is the
payload stored by the k-th successful write step, for every k.  In particular
one write step followed by one read step both succeed and the read returns the
bytes written. -/
theorem fifo_round_trip (storage : zero_ring_buffer) (slot_size slot_count : Int)
    (xs : List Transfer) (hu : storage.m_initialized = 0) (hs : 0 < slot_size)
    (hc : 2 ≤ slot_count) (hp : slot_size * slot_count ≤ SIG_ATOMIC_MAX)
    (hn : (write_steps xs : Int) ≤ SIG_ATOMIC_MAX)
    (hfill : payloads_fill slot_size.toNat xs) :
    (∃ l, transfer_after_create storage slot_size slot_count xs = some l ∧
      l.read_back.length ≤ l.written.length ∧
      ∀ k, k < l.read_back.length → l.read_back[k]? = l.written[k]?) ∧
    (∀ payload : List uint8_t, payload.length = slot_size.toNat →
      ∃ l, transfer_after_create storage slot_size slot_count
          [Transfer.write payload, Transfer.read] = some l ∧
        l.written = [payload] ∧ l.read_back = [payload]) := by
  simp only [SIG_ATOMIC_MAX] at hp hn
  have hstart := log_start_consistent storage slot_size slot_count hc
  constructor
  · obtain ⟨l, hrun, hl⟩ := log_run_consistent slot_size slot_count hs hc hp xs _ hfill
      hstart (by simpa using hn)
    obtain ⟨_, _, _, _, hle, _, _, hpre, _⟩ := hl
    refine ⟨l, by simp [transfer_after_create, create_uninitialised storage _ _ hu, hrun],
      hle, ?_⟩
    intro k hk
    conv_lhs => rw [hpre]
    exact List.getElem?_take_of_lt hk
  · intro payload hlen
    obtain ⟨l, hrun, hl, hw, hr⟩ := log_cycles slot_size slot_count hs hc hp payload hlen 1 _
      hstart rfl (by simp)
    obtain ⟨_, _, _, _, _, _, _, hpre, _⟩ := hl
    have hw1 : l.written.length = 1 := by simpa using hw
    have hr1 : l.read_back.length = 1 := by simpa using hr
    have hrun2 : Log.run [Transfer.write payload, Transfer.read]
        { region := { storage with
            m_head := 1
            m_tail := 0
            m_slot_size := slot_size
            m_slot_count := slot_count
            m_initialized := 1 },
          written := [], read_back := [] } = some l := hrun
    have hwr : l.written = [payload] ∧ l.read_back = [payload] := by
      have hrun' := hrun2
      have hf := log_full_false slot_size slot_count
        (by have := count_le_product slot_size slot_count hs (by omega); omega) _ hstart
        (by simp; omega)
      obtain ⟨l1, h1, hc1, hwa, hra⟩ := log_write_ok slot_size slot_count hs hc hp _ hstart
        payload hlen (by simp) hf
      simp only [Log.run, h1, Option.some_bind] at hrun'
      cases h2 : l1.step Transfer.read with
      | none => simp [h2] at hrun'
      | some l2 =>
          have hl2 : l2 = l := by simpa [h2] using hrun'
          subst hl2
          have hkeep : l2.written = l1.written := by
            by_cases he : zero_ring_buffer_empty l1.region = true
            · rw [log_read_empty l1 he] at h2
              cases h2; rfl
            · obtain ⟨l3, _, h3, _, hw3, _⟩ := log_read_ok slot_size slot_count hs hc hp l1 hc1
                (by simpa using he)
              rw [h3] at h2
              cases h2; exact hw3
          have hwl : l2.written = [payload] := by rw [hkeep, hwa]; rfl
          refine ⟨hwl, ?_⟩
          rw [hpre, hr1, hwl]; rfl
    exact ⟨l, by simp [transfer_after_create, create_uninitialised storage _ _ hu, hrun2],
      hwr.1, hwr.2⟩

theorem fifo_round_trip_witness :
    (∃ l, transfer_after_create blank_storage 4 4 scenario = some l ∧
      l.read_back.length ≤ l.written.length ∧
      ∀ k, k < l.read_back.length → l.read_back[k]? = l.written[k]?) ∧
    (∀ payload : List uint8_t, payload.length = (4 : Int).toNat →
      ∃ l, transfer_after_create blank_storage 4 4
          [Transfer.write payload, Transfer.read] = some l ∧
        l.written = [payload] ∧ l.read_back = [payload]) :=
  fifo_round_trip blank_storage 4 4 scenario rfl (by decide) (by decide) (by decide)
    (by decide) (by simp [scenario, payloads_fill])

theorem write_step_outside (ring_buffer : zero_ring_buffer) (payload : List uint8_t)
    (index : Int) (h : zero_ring_buffer_full ring_buffer = false)
    (hi : c_rem ring_buffer.m_head ring_buffer.m_slot_count = some index)
    (hb : slot_in_array ring_buffer (wrap (index * ring_buffer.m_slot_size)) = false) :
    write_step ring_buffer payload = none := by
  simp [write_step, zero_ring_buffer_stage_write, h, hi, hb]

/-- C1 as stated fails on 32-bit counters and offsets.  With
`slot_size = 2^30` and `slot_count = 4` the second write step stages the slot
at `m_slots - 2^31`, outside the slot array, so the transfer has no defined
result.  With four-byte slots and `slot_count = 3`, after `2^31 - 2` write and
read cycles and one more write step `head` has wrapped to `INT_MIN`, and the
next write step stages the slot at `m_slots - 8`, inside the header. -/
theorem fifo_fails_beyond_int_range :
    (payloads_fill (1073741824 : Int).toNat
        [Transfer.write (List.replicate 1073741824 0),
          Transfer.write (List.replicate 1073741824 0)] ∧
      transfer_after_create blank_storage 1073741824 4
        [Transfer.write (List.replicate 1073741824 0),
          Transfer.write (List.replicate 1073741824 0)] = none) ∧
    (payloads_fill (4 : Int).toNat
        (transfer_cycles [0, 0, 0, 0] 2147483646 ++
          [Transfer.write [0, 0, 0, 0], Transfer.write [0, 0, 0, 0]]) ∧
      transfer_after_create blank_storage 4 3
        (transfer_cycles [0, 0, 0, 0] 2147483646 ++
          [Transfer.write [0, 0, 0, 0], Transfer.write [0, 0, 0, 0]]) = none) := by
  refine ⟨⟨⟨List.length_replicate _ _, List.length_replicate _ _, trivial⟩, rfl⟩, ?_, ?_⟩
  · have hcyc : ∀ n : Nat, payloads_fill (4 : Int).toNat (transfer_cycles [0, 0, 0, 0] n ++
        [Transfer.write [0, 0, 0, 0], Transfer.write [0, 0, 0, 0]]) := by
      intro n
      induction n with
      | zero => simp [transfer_cycles, payloads_fill]
      | succ n ih => exact ⟨rfl, ih⟩
    exact hcyc _
  · have hstart := log_start_consistent blank_storage 4 3 (by decide)
    obtain ⟨l, hrun, hl, hw, hr⟩ := log_cycles 4 3 (by decide) (by decide) (by decide)
      [0, 0, 0, 0] rfl 2147483646 _ hstart rfl (by simp)
    have hw0 : l.written.length = 2147483646 := by simpa using hw
    have hr0 : l.read_back.length = 2147483646 := by simpa using hr
    have hf := log_full_false 4 3 (by decide) l hl (by rw [hw0, hr0]; decide)
    obtain ⟨l1, h1, hl1, hw1, hr1⟩ := log_write_ok 4 3 (by decide) (by decide) (by decide) l hl
      [0, 0, 0, 0] rfl (by rw [hw0]; decide) hf
    have hlen1 : l1.written.length = 2147483647 := by rw [hw1]; simp [hw0]
    have hlen1' : l1.read_back.length = 2147483646 := by rw [hr1, hr0]
    have hf1 := log_full_false 4 3 (by decide) l1 hl1 (by rw [hlen1, hlen1']; decide)
    obtain ⟨hss, hsc, hh, _, _, _, _, _, _⟩ := hl1
    have hhead : l1.region.m_head = -2147483648 := by
      rw [hh, hlen1]; decide
    have h2 : l1.step (Transfer.write [0, 0, 0, 0]) = none := by
      have := write_step_outside l1.region [0, 0, 0, 0] (-2) hf1
        (by rw [hhead, hsc]; decide) (by simp only [slot_in_array, hss, hsc]; decide)
      simp [Log.step, this]
    show (some (⟨⟨1, 4, 3, 1, 0, fun _ => 0⟩, [], []⟩ : Log)).bind
      (Log.run (transfer_cycles [0, 0, 0, 0] 2147483646 ++
        [Transfer.write [0, 0, 0, 0], Transfer.write [0, 0, 0, 0]])) = none
    rw [Option.some_bind, log_run_append]
    rw [show Log.run (transfer_cycles [0, 0, 0, 0] 2147483646)
        ⟨⟨1, 4, 3, 1, 0, fun _ => 0⟩, [], []⟩ = some l from hrun]
    simp only [Option.some_bind, Log.run, h1, h2, Option.none_bind]

theorem counters_of_consistent (slot_size slot_count : Int) (t : Trace)
    (ht : Trace.consistent slot_size slot_count t)
    (hw : (t.write_commits : Int) + 1 ≤ 2147483647) :
    t.region.m_head = (t.write_commits : Int) + 1 ∧
    t.region.m_tail = (t.read_commits : Int) := by
  obtain ⟨_, _, _, hh, htl, hle, _⟩ := ht
  rw [hh, htl]
  exact ⟨wrap_of_range _ (by omega) (by omega), wrap_of_range _ (by omega) (by omega)⟩

theorem full_false_of_consistent (slot_size slot_count : Int) (hr : slot_count ≤ 2147483647)
    (t : Trace) (ht : Trace.consistent slot_size slot_count t)
    (h : (t.write_commits : Int) + 1 - (t.read_commits : Int) ≠ slot_count) :
    zero_ring_buffer_full t.region = false := by
  have hd := full_of_consistent slot_size slot_count hr t ht
  simp only [zero_ring_buffer_full, decide_eq_false_iff_not, hd, ht.2.2.1]
  exact h

theorem used_of_consistent (slot_size slot_count : Int) (hr : slot_count ≤ 2147483647)
    (t : Trace) (ht : Trace.consistent slot_size slot_count t) :
    zero_ring_buffer_used t.region = (t.write_commits : Int) - (t.read_commits : Int) := by
  have hd := full_of_consistent slot_size slot_count hr t ht
  obtain ⟨_, _, _, _, _, hle, hub⟩ := ht
  simp only [zero_ring_buffer_used, hd]
  rw [wrap_of_range _ (by omega) (by omega)]
  omega

theorem empty_false_of_consistent (slot_size slot_count : Int) (hr : slot_count ≤ 2147483647)
    (t : Trace) (ht : Trace.consistent slot_size slot_count t)
    (h : t.read_commits < t.write_commits) :
    zero_ring_buffer_empty t.region = false := by
  have hu := used_of_consistent slot_size slot_count hr t ht
  simp only [zero_ring_buffer_empty, decide_eq_false_iff_not, hu]
  omega

theorem run_append (xs ys : List Op) :
    ∀ t : Trace, Trace.run (xs ++ ys) t = (Trace.run xs t).bind (Trace.run ys) := by
  induction xs with
  | nil => intro t; rfl
  | cons x xs ih =>
      intro t
      cases h : t.step x with
      | none => simp [Trace.run, h]
      | some t1 => simp [Trace.run, h, ih t1]

theorem alternating_consistent (slot_size slot_count : Int) (hc : 2 ≤ slot_count)
    (hr : slot_count ≤ 2147483647) (n : Nat) :
    ∀ t : Trace, Trace.consistent slot_size slot_count t →
      t.write_commits = t.read_commits →
      ∃ t', Trace.run (alternating n) t = some t' ∧ Trace.consistent slot_size slot_count t' ∧
        t'.write_commits = t.write_commits + n ∧ t'.read_commits = t.read_commits + n := by
  induction n with
  | zero => intro t ht _; exact ⟨t, rfl, ht, rfl, rfl⟩
  | succ n ih =>
      intro t ht heq
      have hf := full_false_of_consistent slot_size slot_count hr t ht (by omega)
      obtain ⟨t1, h1, hc1, _, _, _⟩ := step_consistent slot_size slot_count (by omega) hr t ht
        Op.commit_write
      have h1' : t1 = { t with
          region := { t.region with m_head := wrap (t.region.m_head + 1) }
          write_commits := t.write_commits + 1 } := by
        have := h1
        simp only [step_commit_write, zero_ring_buffer_commit_write, hf, Bool.not_false,
          if_true, Option.some.injEq] at this
        exact this.symm
      have hw1 : t1.write_commits = t.write_commits + 1 := by rw [h1']
      have hr1 : t1.read_commits = t.read_commits := by rw [h1']
      have he := empty_false_of_consistent slot_size slot_count hr t1 hc1 (by omega)
      obtain ⟨t2, h2, hc2, _, _, _⟩ := step_consistent slot_size slot_count (by omega) hr t1 hc1
        Op.commit_read
      have h2' : t2 = { t1 with
          region := { t1.region with m_tail := wrap (t1.region.m_tail + 1) }
          read_commits := t1.read_commits + 1 } := by
        have := h2
        simp only [step_commit_read, zero_ring_buffer_commit_read, he, Bool.not_false,
          if_true, Option.some.injEq] at this
        exact this.symm
      have hw2 : t2.write_commits = t.write_commits + 1 := by rw [h2']; exact hw1
      have hr2 : t2.read_commits = t.read_commits + 1 := by rw [h2']; simp only [hr1]
      obtain ⟨t3, h3, hc3, hw3, hr3⟩ := ih t2 hc2 (by omega)
      exact ⟨t3, by simp [alternating, Trace.run, h1, h2, h3], hc3, by omega, by omega⟩

theorem stage_write_congr (a b : zero_ring_buffer) (h1 : a.m_head = b.m_head)
    (h2 : a.m_tail = b.m_tail) (h3 : a.m_slot_size = b.m_slot_size)
    (h4 : a.m_slot_count = b.m_slot_count) :
    zero_ring_buffer_stage_write a = zero_ring_buffer_stage_write b := by
  simp only [zero_ring_buffer_stage_write, zero_ring_buffer_full, h1, h2, h3, h4]

theorem stage_read_congr (a b : zero_ring_buffer) (h1 : a.m_head = b.m_head)
    (h2 : a.m_tail = b.m_tail) (h3 : a.m_slot_size = b.m_slot_size)
    (h4 : a.m_slot_count = b.m_slot_count) :
    zero_ring_buffer_stage_read a = zero_ring_buffer_stage_read b := by
  simp only [zero_ring_buffer_stage_read, zero_ring_buffer_empty, zero_ring_buffer_used,
    h1, h2, h3, h4]

theorem offset_in_range (index slot_size slot_count : Int) (hs : 0 ≤ slot_size)
    (hp : slot_size * slot_count ≤ 2147483647) (h0 : 0 ≤ index) (h1 : index < slot_count) :
    wrap (index * slot_size) = index * slot_size := by
  have ha : 0 ≤ index * slot_size := Int.mul_nonneg h0 hs
  have hb : index * slot_size ≤ slot_count * slot_size :=
    Int.mul_le_mul_of_nonneg_right (by omega) hs
  exact wrap_of_range _ (by omega) (by linarith)

theorem stage_write_of_consistent (slot_size slot_count : Int) (hc : 1 ≤ slot_count)
    (hr : slot_count ≤ 2147483647) (t : Trace)
    (ht : Trace.consistent slot_size slot_count t)
    (hw : (t.write_commits : Int) + 1 ≤ 2147483647)
    (hf : zero_ring_buffer_full t.region = false) :
    zero_ring_buffer_stage_write t.region =
      some (pointer.slot (wrap ((((t.write_commits : Int) + 1) % slot_count) * slot_size))) ∧
    Int.tmod t.region.m_head t.region.m_slot_count =
      ((t.write_commits : Int) + 1) % slot_count := by
  obtain ⟨hhead, _⟩ := counters_of_consistent slot_size slot_count t ht hw
  obtain ⟨hi, hss, hsc, hh, htl, hle, hub⟩ := ht
  have hmod : Int.tmod t.region.m_head t.region.m_slot_count =
      ((t.write_commits : Int) + 1) % slot_count := by
    rw [hhead, hsc]
    exact Int.tmod_eq_emod (by omega) (by omega)
  refine ⟨?_, hmod⟩
  simp [zero_ring_buffer_stage_write, hf, c_rem_of_pos _ _ (by omega : 1 ≤ t.region.m_slot_count),
    hmod, hss]

theorem stage_read_of_consistent (slot_size slot_count : Int) (hc : 1 ≤ slot_count)
    (hr : slot_count ≤ 2147483647) (t : Trace)
    (ht : Trace.consistent slot_size slot_count t)
    (hw : (t.write_commits : Int) ≤ 2147483647)
    (he : zero_ring_buffer_empty t.region = false) :
    zero_ring_buffer_stage_read t.region =
      some (pointer.slot (wrap ((((t.read_commits : Int) + 1) % slot_count) * slot_size))) := by
  have hu := used_of_consistent slot_size slot_count hr t ht
  obtain ⟨hi, hss, hsc, hh, htl, hle, hub⟩ := ht
  have hne : ¬ (zero_ring_buffer_used t.region = 0) := by
    simpa [zero_ring_buffer_empty] using he
  rw [hu] at hne
  have htail : wrap (t.region.m_tail + 1) = (t.read_commits : Int) + 1 := by
    rw [htl, wrap_add_wrap_left]
    exact wrap_of_range _ (by omega) (by omega)
  have hmod : Int.tmod ((t.read_commits : Int) + 1) t.region.m_slot_count =
      ((t.read_commits : Int) + 1) % slot_count := by
    rw [hsc]
    exact Int.tmod_eq_emod (by omega) (by omega)
  simp [zero_ring_buffer_stage_read, he, c_rem_of_pos _ _ (by omega : 1 ≤ t.region.m_slot_count),
    htail, hmod, hss]

theorem late_state (slot_size slot_count : Int) (hc : 2 ≤ slot_count)
    (hr : slot_count ≤ 2147483647) (n : Nat) :
    ∃ t, run_after_create blank_storage slot_size slot_count (alternating n) = some t ∧
      t.write_commits = n ∧ t.read_commits = n ∧
      t.region.m_head = wrap ((n : Int) + 1) ∧ t.region.m_tail = wrap (n : Int) ∧
      t.region.m_slot_size = slot_size ∧ t.region.m_slot_count = slot_count := by
  obtain ⟨t, hrun, ht, hw, hr'⟩ := alternating_consistent slot_size slot_count hc hr n _
    (start_consistent blank_storage slot_size slot_count (by omega)) rfl
  have hw' : t.write_commits = n := by simpa [Trace.start] using hw
  have hr'' : t.read_commits = n := by simpa [Trace.start] using hr'
  obtain ⟨_, hss, hsc, hh, htl, _, _⟩ := ht
  refine ⟨t, ?_, hw', hr'', by rw [hh, hw'], by rw [htl, hr''], hss, hsc⟩
  simp only [run_after_create, create_uninitialised blank_storage _ _ rfl, Option.some_bind]
  exact hrun

/-- C2 as stated fails on 32-bit counters and offsets.  With `slot_size = 2^30`
and `slot_count = 8`, after four write-commits `stage_write` and `stage_read`
both return `m_slots + 2^30`: slot 5 and slot 1 are the same bytes.  With
four-byte slots and `slot_count = 3`, after `2^31 - 1` write and read commit
cycles `head` is `INT_MIN` and `stage_write` returns `m_slots - 8`, which is
not the slot of index `head mod slot_count`. -/
theorem staged_slots_coincide_beyond_int_range :
    (∃ t, run_after_create blank_storage 1073741824 8
        [Op.commit_write, Op.commit_write, Op.commit_write, Op.commit_write] = some t ∧
      zero_ring_buffer_stage_write t.region = some (pointer.slot 1073741824) ∧
      zero_ring_buffer_stage_read t.region = some (pointer.slot 1073741824)) ∧
    (∃ t, run_after_create blank_storage 4 3 (alternating 2147483647) = some t ∧
      t.region.m_head = -2147483648 ∧
      zero_ring_buffer_stage_write t.region = some (pointer.slot (-8)) ∧
      (t.region.m_head % t.region.m_slot_count) * t.region.m_slot_size = 4) := by
  refine ⟨⟨_, rfl, by decide, by decide⟩, ?_⟩
  obtain ⟨t, hrun, _, _, hh, htl, hss, hsc⟩ := late_state 4 3 (by decide) (by decide) 2147483647
  have hh' : t.region.m_head = -2147483648 := by rw [hh]; decide
  have htl' : t.region.m_tail = 2147483647 := by rw [htl]; decide
  refine ⟨t, hrun, hh', ?_, by rw [hh', hsc, hss]; decide⟩
  rw [stage_write_congr t.region ⟨1, 4, 3, -2147483648, 2147483647, fun _ => 0⟩ hh' htl' hss hsc]
  decide

/-- C2, amended. Writer/reader slot exclusion within the range of `int`: in
every state reached from `zero_ring_buffer_create` (`slot_count >= 2`) by stage
and commit calls in which `head` has not passed `INT_MAX` (fewer than
`2^31 - 1` write-commits so far), a slot returned by
`zero_ring_buffer_stage_write` is the one of index `head mod slot_count`, and
that index differs from the index `c mod slot_count` of every committed and
unconsumed slot `tail + 1 <= c <= head - 1`.  When
`zero_ring_buffer_stage_read` returns a slot as well, it is the slot of index
`(tail + 1) mod slot_count`, a different index, and for `slot_size > 0` with
`slot_size * slot_count <= INT_MAX` a different address whose bytes do not
overlap those of the slot staged for writing. -/
theorem writer_reader_slot_exclusion (storage : zero_ring_buffer)
    (slot_size slot_count : Int) (ops : List Op)
    (hu : storage.m_initialized = 0) (hc : 2 ≤ slot_count)
    (hr : slot_count ≤ SIG_ATOMIC_MAX) :
    ∃ t, run_after_create storage slot_size slot_count ops = some t ∧
      ((t.write_commits : Int) + 1 ≤ SIG_ATOMIC_MAX →
      ∀ w, zero_ring_buffer_stage_write t.region = some (pointer.slot w) →
        w = wrap ((t.region.m_head % t.region.m_slot_count) * t.region.m_slot_size) ∧
        (∀ c : Int, t.region.m_tail + 1 ≤ c → c ≤ t.region.m_head - 1 →
          t.region.m_head % t.region.m_slot_count ≠ c % t.region.m_slot_count) ∧
        (∀ r, zero_ring_buffer_stage_read t.region = some (pointer.slot r) →
          r = wrap (((t.region.m_tail + 1) % t.region.m_slot_count) *
            t.region.m_slot_size) ∧
          (t.region.m_tail + 1) % t.region.m_slot_count ≠
            t.region.m_head % t.region.m_slot_count ∧
          (0 < slot_size → slot_size * slot_count ≤ SIG_ATOMIC_MAX →
            r ≠ w ∧ (r + slot_size ≤ w ∨ w + slot_size ≤ r)))) := by
  simp only [SIG_ATOMIC_MAX] at hr ⊢
  obtain ⟨t, hrun, ht⟩ :=
    run_after_create_consistent storage slot_size slot_count hu (by omega) hr ops
  refine ⟨t, hrun, ?_⟩
  intro hw w hsw
  obtain ⟨hhead, htail⟩ := counters_of_consistent slot_size slot_count t ht hw
  have hss := ht.2.1
  have hsc := ht.2.2.1
  have hle := ht.2.2.2.2.2.1
  have hub := ht.2.2.2.2.2.2
  by_cases hf : zero_ring_buffer_full t.region = true
  · simp [zero_ring_buffer_stage_write, hf] at hsw
  have hf' : zero_ring_buffer_full t.region = false := by simpa using hf
  have hnf : (t.write_commits : Int) + 1 - (t.read_commits : Int) ≠ slot_count := by
    intro h
    have hd := full_of_consistent slot_size slot_count hr t ht
    have : zero_ring_buffer_full t.region = true := by
      simp only [zero_ring_buffer_full, decide_eq_true_eq, hd, hsc]
      exact h
    rw [this] at hf'
    exact Bool.noConfusion hf'
  obtain ⟨hst, _⟩ := stage_write_of_consistent slot_size slot_count (by omega) hr t ht hw hf'
  have hex : ∀ c : Int, t.region.m_tail + 1 ≤ c → c ≤ t.region.m_head - 1 →
      t.region.m_head % t.region.m_slot_count ≠ c % t.region.m_slot_count := by
    intro c h1 h2
    refine slot_index_ne _ _ _ (by omega) ?_
    rw [hhead, hsc]; rw [htail] at h1
    omega
  have hw' : w = wrap ((t.region.m_head % t.region.m_slot_count) * t.region.m_slot_size) := by
    rw [hst] at hsw
    rw [hhead, hsc, hss]
    simpa using hsw.symm
  refine ⟨hw', hex, ?_⟩
  intro r hsr
  by_cases he : zero_ring_buffer_empty t.region = true
  · simp [zero_ring_buffer_stage_read, he] at hsr
  have he' : zero_ring_buffer_empty t.region = false := by simpa using he
  have hsr' := stage_read_of_consistent slot_size slot_count (by omega) hr t ht (by omega) he'
  have hr' : r = wrap (((t.region.m_tail + 1) % t.region.m_slot_count) *
      t.region.m_slot_size) := by
    rw [hsr'] at hsr
    rw [htail, hsc, hss]
    simpa using hsr.symm
  have hlt : t.read_commits < t.write_commits := by
    have hu' := used_of_consistent slot_size slot_count hr t ht
    have hne : ¬ (zero_ring_buffer_used t.region = 0) := by
      simpa [zero_ring_buffer_empty] using he
    rw [hu'] at hne
    omega
  have hidx := (hex (t.region.m_tail + 1) (le_refl _) (by rw [hhead, htail]; omega)).symm
  refine ⟨hr', hidx, ?_⟩
  intro hs hp
  simp only [hhead, htail, hsc, hss] at hw' hr' hidx
  have hi0 : 0 ≤ ((t.write_commits : Int) + 1) % slot_count := Int.emod_nonneg _ (by omega)
  have hi1 : ((t.write_commits : Int) + 1) % slot_count < slot_count :=
    Int.emod_lt_of_pos _ (by omega)
  have hj0 : 0 ≤ ((t.read_commits : Int) + 1) % slot_count := Int.emod_nonneg _ (by omega)
  have hj1 : ((t.read_commits : Int) + 1) % slot_count < slot_count :=
    Int.emod_lt_of_pos _ (by omega)
  rw [offset_in_range _ slot_size slot_count (le_of_lt hs) hp hi0 hi1] at hw'
  rw [offset_in_range _ slot_size slot_count (le_of_lt hs) hp hj0 hj1] at hr'
  have hap := slots_apart _ _ slot_size hs hidx
  rw [hw', hr']
  constructor
  · intro heq
    omega
  · exact hap

theorem writer_reader_slot_exclusion_witness :
    ∃ t, run_after_create blank_storage 4 4
        [Op.stage_write, Op.commit_write, Op.commit_write, Op.stage_read, Op.commit_read] =
          some t ∧
      ((t.write_commits : Int) + 1 ≤ SIG_ATOMIC_MAX →
      ∀ w, zero_ring_buffer_stage_write t.region = some (pointer.slot w) →
        w = wrap ((t.region.m_head % t.region.m_slot_count) * t.region.m_slot_size) ∧
        (∀ c : Int, t.region.m_tail + 1 ≤ c → c ≤ t.region.m_head - 1 →
          t.region.m_head % t.region.m_slot_count ≠ c % t.region.m_slot_count) ∧
        (∀ r, zero_ring_buffer_stage_read t.region = some (pointer.slot r) →
          r = wrap (((t.region.m_tail + 1) % t.region.m_slot_count) *
            t.region.m_slot_size) ∧
          (t.region.m_tail + 1) % t.region.m_slot_count ≠
            t.region.m_head % t.region.m_slot_count ∧
          (0 < (4 : Int) → (4 : Int) * 4 ≤ SIG_ATOMIC_MAX →
            r ≠ w ∧ (r + 4 ≤ w ∨ w + 4 ≤ r)))) :=
  writer_reader_slot_exclusion blank_storage 4 4
    [Op.stage_write, Op.commit_write, Op.commit_write, Op.stage_read, Op.commit_read]
    rfl (by decide) (by decide)

/-- C4. Fresh state: for `slot_size > 0` and `slot_count >= 2`,
`zero_ring_buffer_create` on an uninitialised region returns, and immediately
afterwards `initialized()` is true, `head == 1`, `tail == 0`, the stored
`slot_size` and `slot_count` are the arguments, `empty()` is true, `full()` is
false, `used() == 0` and `size() == slot_count - 1`. -/
theorem fresh_state (storage : zero_ring_buffer) (slot_size slot_count : Int)
    (hu : storage.m_initialized = 0) (hs : 0 < slot_size) (hc : 2 ≤ slot_count)
    (hr : is_sig_atomic_t slot_count) :
    ∃ ring_buffer, zero_ring_buffer_create storage slot_size slot_count = some ring_buffer ∧
      zero_ring_buffer_initialized ring_buffer = true ∧
      ring_buffer.m_head = 1 ∧ ring_buffer.m_tail = 0 ∧
      ring_buffer.m_slot_size = slot_size ∧ ring_buffer.m_slot_count = slot_count ∧
      zero_ring_buffer_empty ring_buffer = true ∧
      zero_ring_buffer_full ring_buffer = false ∧
      zero_ring_buffer_used ring_buffer = 0 ∧
      zero_ring_buffer_size ring_buffer = slot_count - 1 := by
  have _ := hs
  have hr' : slot_count ≤ 2147483647 := hr.2
  have h1 : wrap (1 - 0) = 1 := by decide
  have h0 : wrap (1 - 1) = 0 := by decide
  have hne : ¬ ((1 : Int) = slot_count) := by omega
  refine ⟨_, create_uninitialised storage slot_size slot_count hu, ?_, rfl, rfl, rfl, rfl,
    ?_, ?_, ?_, ?_⟩
  · simp [zero_ring_buffer_initialized]
  · simp only [zero_ring_buffer_empty, zero_ring_buffer_used, h1, h0, decide_True]
  · simp only [zero_ring_buffer_full, h1, hne, decide_False]
  · simp only [zero_ring_buffer_used, h1, h0]
  · simp only [zero_ring_buffer_size]
    exact wrap_of_range _ (by omega) (by omega)

theorem fresh_state_witness :
    ∃ ring_buffer, zero_ring_buffer_create blank_storage 4 4 = some ring_buffer ∧
      zero_ring_buffer_initialized ring_buffer = true ∧
      ring_buffer.m_head = 1 ∧ ring_buffer.m_tail = 0 ∧
      ring_buffer.m_slot_size = 4 ∧ ring_buffer.m_slot_count = 4 ∧
      zero_ring_buffer_empty ring_buffer = true ∧
      zero_ring_buffer_full ring_buffer = false ∧
      zero_ring_buffer_used ring_buffer = 0 ∧
      zero_ring_buffer_size ring_buffer = 4 - 1 :=
  fresh_state blank_storage 4 4 rfl (by decide) (by decide) ⟨by decide, by decide⟩

/-- C5, evaluated on the code: after `zero_ring_buffer_create` on an
uninitialised region with `slot_size = 4` and `slot_count = 4`, `available()`
is 4 while `size()` is 3, so `available()` is not `size()`. -/
theorem fresh_available_is_not_size :
    ∃ ring_buffer, zero_ring_buffer_create blank_storage 4 4 = some ring_buffer ∧
      zero_ring_buffer_available ring_buffer = 4 ∧
      zero_ring_buffer_size ring_buffer = 3 ∧
      zero_ring_buffer_available ring_buffer ≠ zero_ring_buffer_size ring_buffer :=
  ⟨_, rfl, by decide, by decide, by decide⟩

theorem fresh_available_eq_slot_count (storage : zero_ring_buffer)
    (slot_size slot_count : Int) (hu : storage.m_initialized = 0)
    (hc : 2 ≤ slot_count) (hr : is_sig_atomic_t slot_count) :
    ∃ ring_buffer, zero_ring_buffer_create storage slot_size slot_count = some ring_buffer ∧
      zero_ring_buffer_available ring_buffer = slot_count ∧
      zero_ring_buffer_available ring_buffer = zero_ring_buffer_size ring_buffer + 1 := by
  have hr' : slot_count ≤ 2147483647 := hr.2
  have h1 : wrap (1 - 0) = 1 := by decide
  have h0 : wrap (1 - 1) = 0 := by decide
  refine ⟨_, create_uninitialised storage slot_size slot_count hu, ?_⟩
  simp only [zero_ring_buffer_available, zero_ring_buffer_used, zero_ring_buffer_size, h1, h0]
  rw [wrap_of_range (slot_count - 0) (by omega) (by omega),
    wrap_of_range (slot_count - 1) (by omega) (by omega)]
  omega

theorem wrap_sub_succ (h t : Int) : wrap (wrap (h + 1) - t) = wrap (wrap (h - t) + 1) := by
  rw [wrap_sub_wrap_left, wrap_add_wrap_left]
  congr 1
  ring

theorem commit_write_times_below (n : Nat) :
    ∀ ring_buffer : zero_ring_buffer,
      wrap ring_buffer.m_head = ring_buffer.m_head →
      wrap (ring_buffer.m_head - ring_buffer.m_tail) + (n : Int) ≤ ring_buffer.m_slot_count →
      ring_buffer.m_slot_count ≤ 2147483647 →
      commit_write_times n ring_buffer =
        { ring_buffer with m_head := wrap (ring_buffer.m_head + (n : Int)) } := by
  induction n with
  | zero =>
      intro ring_buffer hin _ _
      simp [commit_write_times, hin]
  | succ n ih =>
      intro ring_buffer hin h hr
      have hd := wrap_range (ring_buffer.m_head - ring_buffer.m_tail)
      have hf : zero_ring_buffer_full ring_buffer = false := by
        simp only [zero_ring_buffer_full, decide_eq_false_iff_not]
        push_cast at h
        omega
      have hstep : (zero_ring_buffer_commit_write ring_buffer).2 =
          { ring_buffer with m_head := wrap (ring_buffer.m_head + 1) } := by
        simp [zero_ring_buffer_commit_write, hf]
      rw [commit_write_times, hstep, ih _ (wrap_wrap _)]
      · simp only [Nat.cast_add, Nat.cast_one, wrap_add_wrap_left]
        congr 2
        ring
      · show wrap (wrap (ring_buffer.m_head + 1) - ring_buffer.m_tail) + (n : Int) ≤
          ring_buffer.m_slot_count
        rw [wrap_sub_succ, wrap_of_range _ (by omega) (by push_cast at h; omega)]
        push_cast at h
        omega
      · exact hr

/-- C6. Full-buffer boundary: for `slot_count >= 2`, starting from a freshly
created buffer, each of the first `slot_count - 1` calls of `commit_write`
(no `commit_read` in between) returns true; afterwards `full()` is true,
`stage_write` returns null, `commit_write` returns false, and that failed call
leaves the region, every header field included, as it was. -/
theorem full_buffer_boundary (storage : zero_ring_buffer) (slot_size slot_count : Int)
    (hu : storage.m_initialized = 0) (hc : 2 ≤ slot_count)
    (hr : is_sig_atomic_t slot_count) :
    ∃ ring_buffer, zero_ring_buffer_create storage slot_size slot_count = some ring_buffer ∧
      (∀ k : Nat, (k : Int) < slot_count - 1 →
        (zero_ring_buffer_commit_write (commit_write_times k ring_buffer)).1 = true) ∧
      zero_ring_buffer_full (commit_write_times (slot_count - 1).toNat ring_buffer) = true ∧
      zero_ring_buffer_stage_write (commit_write_times (slot_count - 1).toNat ring_buffer) =
        some pointer.null ∧
      zero_ring_buffer_commit_write (commit_write_times (slot_count - 1).toNat ring_buffer) =
        (false, commit_write_times (slot_count - 1).toNat ring_buffer) := by
  have hr' : slot_count ≤ 2147483647 := hr.2
  have h1 : wrap (1 : Int) = 1 := by decide
  have h10 : wrap ((1 : Int) - 0) = 1 := by decide
  refine ⟨_, create_uninitialised storage slot_size slot_count hu, ?_, ?_⟩
  · intro k hk
    have hb : wrap ((1 : Int) - 0) + (k : Int) ≤ slot_count := by rw [h10]; omega
    rw [commit_write_times_below k ⟨1, slot_size, slot_count, 1, 0, storage.m_slots⟩ h1 hb hr']
    have hw : wrap ((1 : Int) + (k : Int)) = 1 + (k : Int) :=
      wrap_of_range _ (by omega) (by omega)
    have hne : ¬ ((1 : Int) + (k : Int) = slot_count) := by omega
    simp [zero_ring_buffer_commit_write, zero_ring_buffer_full, hw, hne]
  · obtain ⟨n, hn, hn'⟩ : ∃ n : Nat, (slot_count - 1).toNat = n ∧ (n : Int) = slot_count - 1 :=
      ⟨_, rfl, Int.toNat_of_nonneg (by omega)⟩
    have hb : wrap ((1 : Int) - 0) + (n : Int) ≤ slot_count := by rw [h10]; omega
    rw [hn, commit_write_times_below n ⟨1, slot_size, slot_count, 1, 0, storage.m_slots⟩ h1 hb hr']
    have hw : wrap ((1 : Int) + (n : Int)) = slot_count :=
      (wrap_of_range _ (by omega) (by omega)).trans (by omega)
    have hfull : wrap slot_count = slot_count := wrap_of_range _ (by omega) (by omega)
    simp [zero_ring_buffer_commit_write, zero_ring_buffer_stage_write, zero_ring_buffer_full,
      hw, hfull]

theorem full_buffer_boundary_witness :
    ∃ ring_buffer, zero_ring_buffer_create blank_storage 4 4 = some ring_buffer ∧
      (∀ k : Nat, (k : Int) < 4 - 1 →
        (zero_ring_buffer_commit_write (commit_write_times k ring_buffer)).1 = true) ∧
      zero_ring_buffer_full (commit_write_times ((4 : Int) - 1).toNat ring_buffer) = true ∧
      zero_ring_buffer_stage_write (commit_write_times ((4 : Int) - 1).toNat ring_buffer) =
        some pointer.null ∧
      zero_ring_buffer_commit_write (commit_write_times ((4 : Int) - 1).toNat ring_buffer) =
        (false, commit_write_times ((4 : Int) - 1).toNat ring_buffer) :=
  full_buffer_boundary blank_storage 4 4 rfl (by decide) ⟨by decide, by decide⟩

/-- C7. Would-block consistency: in every state `stage_read` returns null iff
`commit_read` returns false iff `empty()` is true, and `stage_write` returns
null iff `commit_write` returns false iff `full()` is true; a commit that
returns false leaves the region unchanged; and on a freshly created buffer
`stage_read` returns null and `commit_read` returns false. -/
theorem would_block_consistency (ring_buffer storage : zero_ring_buffer)
    (slot_size slot_count : Int) (hu : storage.m_initialized = 0) :
    ((zero_ring_buffer_stage_read ring_buffer = some pointer.null ↔
        (zero_ring_buffer_commit_read ring_buffer).1 = false) ∧
      ((zero_ring_buffer_commit_read ring_buffer).1 = false ↔
        zero_ring_buffer_empty ring_buffer = true)) ∧
    ((zero_ring_buffer_stage_write ring_buffer = some pointer.null ↔
        (zero_ring_buffer_commit_write ring_buffer).1 = false) ∧
      ((zero_ring_buffer_commit_write ring_buffer).1 = false ↔
        zero_ring_buffer_full ring_buffer = true)) ∧
    ((zero_ring_buffer_commit_read ring_buffer).1 = false →
      (zero_ring_buffer_commit_read ring_buffer).2 = ring_buffer) ∧
    ((zero_ring_buffer_commit_write ring_buffer).1 = false →
      (zero_ring_buffer_commit_write ring_buffer).2 = ring_buffer) ∧
    (∃ fresh, zero_ring_buffer_create storage slot_size slot_count = some fresh ∧
      zero_ring_buffer_stage_read fresh = some pointer.null ∧
      (zero_ring_buffer_commit_read fresh).1 = false) := by
  refine ⟨⟨?_, ?_⟩, ⟨?_, ?_⟩, ?_, ?_, ?_⟩
  · by_cases he : zero_ring_buffer_empty ring_buffer = true
    · simp [zero_ring_buffer_stage_read, zero_ring_buffer_commit_read, he]
    · simp only [zero_ring_buffer_stage_read, zero_ring_buffer_commit_read, he]
      cases c_rem (wrap (ring_buffer.m_tail + 1)) ring_buffer.m_slot_count <;> simp
  · by_cases he : zero_ring_buffer_empty ring_buffer = true <;>
      simp [zero_ring_buffer_commit_read, he]
  · by_cases hf : zero_ring_buffer_full ring_buffer = true
    · simp [zero_ring_buffer_stage_write, zero_ring_buffer_commit_write, hf]
    · simp only [zero_ring_buffer_stage_write, zero_ring_buffer_commit_write, hf]
      cases c_rem ring_buffer.m_head ring_buffer.m_slot_count <;> simp
  · by_cases hf : zero_ring_buffer_full ring_buffer = true <;>
      simp [zero_ring_buffer_commit_write, hf]
  · by_cases he : zero_ring_buffer_empty ring_buffer = true <;>
      simp [zero_ring_buffer_commit_read, he]
  · by_cases hf : zero_ring_buffer_full ring_buffer = true <;>
      simp [zero_ring_buffer_commit_write, hf]
  · have h1 : wrap (1 : Int) = 1 := by decide
    have h0 : wrap (0 : Int) = 0 := by decide
    refine ⟨_, create_uninitialised storage slot_size slot_count hu, ?_, ?_⟩ <;>
      simp [zero_ring_buffer_stage_read, zero_ring_buffer_commit_read, zero_ring_buffer_empty,
        zero_ring_buffer_used, h1, h0]

theorem would_block_consistency_witness :
    ((zero_ring_buffer_stage_read sample_region = some pointer.null ↔
        (zero_ring_buffer_commit_read sample_region).1 = false) ∧
      ((zero_ring_buffer_commit_read sample_region).1 = false ↔
        zero_ring_buffer_empty sample_region = true)) ∧
    ((zero_ring_buffer_stage_write sample_region = some pointer.null ↔
        (zero_ring_buffer_commit_write sample_region).1 = false) ∧
      ((zero_ring_buffer_commit_write sample_region).1 = false ↔
        zero_ring_buffer_full sample_region = true)) ∧
    ((zero_ring_buffer_commit_read sample_region).1 = false →
      (zero_ring_buffer_commit_read sample_region).2 = sample_region) ∧
    ((zero_ring_buffer_commit_write sample_region).1 = false →
      (zero_ring_buffer_commit_write sample_region).2 = sample_region) ∧
    (∃ fresh, zero_ring_buffer_create blank_storage 4 4 = some fresh ∧
      zero_ring_buffer_stage_read fresh = some pointer.null ∧
      (zero_ring_buffer_commit_read fresh).1 = false) :=
  would_block_consistency sample_region blank_storage 4 4 rfl

/-- C8, evaluated on the code at `slot_size = 4`, `slot_count = 4`: three
write-commits after create make `full()` true; one `commit_read` then succeeds
and leaves `full()` false, but `available()` is 2, not 1; the following
`commit_write` succeeds and makes `full()` true again. -/
theorem one_slot_freed_available_is_two :
    ∃ fresh, zero_ring_buffer_create blank_storage 4 4 = some fresh ∧
      zero_ring_buffer_full (commit_write_times 3 fresh) = true ∧
      (zero_ring_buffer_commit_read (commit_write_times 3 fresh)).1 = true ∧
      zero_ring_buffer_full (zero_ring_buffer_commit_read (commit_write_times 3 fresh)).2 =
        false ∧
      zero_ring_buffer_available (zero_ring_buffer_commit_read (commit_write_times 3 fresh)).2 =
        2 ∧
      (zero_ring_buffer_commit_write
        (zero_ring_buffer_commit_read (commit_write_times 3 fresh)).2).1 = true ∧
      zero_ring_buffer_full (zero_ring_buffer_commit_write
        (zero_ring_buffer_commit_read (commit_write_times 3 fresh)).2).2 = true :=
  ⟨_, rfl, by decide, by decide, by decide, by decide, by decide, by decide⟩

theorem one_slot_freed_from_full (storage : zero_ring_buffer) (slot_size slot_count : Int)
    (hu : storage.m_initialized = 0) (hc : 2 ≤ slot_count)
    (hr : is_sig_atomic_t slot_count) :
    ∃ fresh, zero_ring_buffer_create storage slot_size slot_count = some fresh ∧
      zero_ring_buffer_full (commit_write_times (slot_count - 1).toNat fresh) = true ∧
      (zero_ring_buffer_commit_read (commit_write_times (slot_count - 1).toNat fresh)).1 =
        true ∧
      zero_ring_buffer_full
        (zero_ring_buffer_commit_read (commit_write_times (slot_count - 1).toNat fresh)).2 =
          false ∧
      zero_ring_buffer_available
        (zero_ring_buffer_commit_read (commit_write_times (slot_count - 1).toNat fresh)).2 =
          2 ∧
      (zero_ring_buffer_commit_write
        (zero_ring_buffer_commit_read
          (commit_write_times (slot_count - 1).toNat fresh)).2).1 = true ∧
      zero_ring_buffer_full (zero_ring_buffer_commit_write
        (zero_ring_buffer_commit_read
          (commit_write_times (slot_count - 1).toNat fresh)).2).2 = true := by
  have hr' : slot_count ≤ 2147483647 := hr.2
  have h1 : wrap (1 : Int) = 1 := by decide
  have h10 : wrap ((1 : Int) - 0) = 1 := by decide
  refine ⟨_, create_uninitialised storage slot_size slot_count hu, ?_⟩
  obtain ⟨n, hn, hn'⟩ : ∃ n : Nat, (slot_count - 1).toNat = n ∧ (n : Int) = slot_count - 1 :=
    ⟨_, rfl, Int.toNat_of_nonneg (by omega)⟩
  have hb : wrap ((1 : Int) - 0) + (n : Int) ≤ slot_count := by rw [h10]; omega
  rw [hn, commit_write_times_below n ⟨1, slot_size, slot_count, 1, 0, storage.m_slots⟩ h1 hb hr']
  have hw : wrap ((1 : Int) + (n : Int)) = slot_count :=
    (wrap_of_range _ (by omega) (by omega)).trans (by omega)
  have hfull : wrap slot_count = slot_count := wrap_of_range _ (by omega) (by omega)
  have hused : wrap (slot_count - 1) = slot_count - 1 := wrap_of_range _ (by omega) (by omega)
  have hused2 : wrap (slot_count - 1 - 1) = slot_count - 1 - 1 :=
    wrap_of_range _ (by omega) (by omega)
  have hav : wrap (slot_count - (slot_count - 1 - 1)) = 2 :=
    (wrap_of_range _ (by omega) (by omega)).trans (by omega)
  have hne0 : ¬ (slot_count - 1 = 0) := by omega
  have hne1 : ¬ (slot_count - 1 = slot_count) := by omega
  have hback : wrap (wrap (slot_count + 1) - 1) = slot_count := by
    rw [wrap_sub_wrap_left, show slot_count + 1 - 1 = slot_count by ring]; exact hfull
  simp [zero_ring_buffer_commit_write, zero_ring_buffer_commit_read, zero_ring_buffer_full,
    zero_ring_buffer_empty, zero_ring_buffer_used, zero_ring_buffer_available, hw, hfull, hused,
    hused2, hav, hne0, hne1, h1, hback]

/-- C9 as stated fails on 32-bit offsets: with `slot_size = 2^30` and
`slot_count = 4`, the `stage_write` before the second write-commit returns
`m_slots - 2^31`, while `(2 mod 4) * slot_size` is `2^31`. -/
theorem offset_product_overflows :
    ∃ t, run_after_create blank_storage 1073741824 4 [Op.commit_write] = some t ∧
      t.write_commits + 1 = 2 ∧
      zero_ring_buffer_stage_write t.region = some (pointer.slot (-2147483648)) ∧
      (((t.write_commits : Int) + 1) % 4) * 1073741824 = 2147483648 :=
  ⟨_, rfl, rfl, by decide, by decide⟩

/-- C9, amended. Wraparound addressing within the range of `int`: for
`slot_count >= 2` and `slot_size >= 0` with `slot_size * slot_count <= INT_MAX`
and every sequence of calls after create, a slot returned by `stage_write` once
`N - 1` write-commits have succeeded, for `N <= INT_MAX` (the counter taken as
unbounded: it has not wrapped yet), is followed by a successful commit, the
N-th, and has index `N mod slot_count` and byte offset
`(N mod slot_count) * slot_size`.  In particular after any number
`n < INT_MAX` of alternating write/read commit cycles, `2 * slot_count` of them
included, `stage_write` returns the slot of index `(n + 1) mod slot_count` and
the next `commit_write` succeeds. -/
theorem wraparound_addressing (storage : zero_ring_buffer) (slot_size slot_count : Int)
    (ops : List Op) (hu : storage.m_initialized = 0) (hc : 2 ≤ slot_count)
    (hs : 0 ≤ slot_size) (hp : slot_size * slot_count ≤ SIG_ATOMIC_MAX)
    (hr : is_sig_atomic_t slot_count) :
    (∃ t, run_after_create storage slot_size slot_count ops = some t ∧
      ((t.write_commits : Int) + 1 ≤ SIG_ATOMIC_MAX →
      ∀ w, zero_ring_buffer_stage_write t.region = some (pointer.slot w) →
        (zero_ring_buffer_commit_write t.region).1 = true ∧
        Int.tmod t.region.m_head t.region.m_slot_count =
          ((t.write_commits : Int) + 1) % slot_count ∧
        w = (((t.write_commits : Int) + 1) % slot_count) * slot_size)) ∧
    (∀ n : Nat, (n : Int) + 1 ≤ SIG_ATOMIC_MAX →
      ∃ t, run_after_create storage slot_size slot_count (alternating n) = some t ∧
      t.write_commits = n ∧ t.read_commits = n ∧
      zero_ring_buffer_stage_write t.region =
        some (pointer.slot ((((n : Int) + 1) % slot_count) * slot_size)) ∧
      (zero_ring_buffer_commit_write t.region).1 = true) := by
  simp only [SIG_ATOMIC_MAX] at hp ⊢
  have hr' : slot_count ≤ 2147483647 := hr.2
  have hoff : ∀ c : Int, wrap ((c % slot_count) * slot_size) = (c % slot_count) * slot_size :=
    fun c => offset_in_range _ slot_size slot_count hs hp (Int.emod_nonneg _ (by omega))
      (Int.emod_lt_of_pos _ (by omega))
  constructor
  · obtain ⟨t, hrun, ht⟩ :=
      run_after_create_consistent storage slot_size slot_count hu (by omega) hr' ops
    refine ⟨t, hrun, ?_⟩
    intro hw w hsw
    by_cases hf : zero_ring_buffer_full t.region = true
    · simp [zero_ring_buffer_stage_write, hf] at hsw
    have hf' : zero_ring_buffer_full t.region = false := by simpa using hf
    obtain ⟨hst, hmod⟩ := stage_write_of_consistent slot_size slot_count (by omega) hr' t ht hw hf'
    rw [hst, hoff] at hsw
    refine ⟨by simp [zero_ring_buffer_commit_write, hf'], hmod, ?_⟩
    simpa using hsw.symm
  · intro n hn
    obtain ⟨t, hrun, ht, hw, hrd⟩ := alternating_consistent slot_size slot_count hc hr' n _
      (start_consistent storage slot_size slot_count (by omega)) rfl
    have hw' : t.write_commits = n := by simpa [Trace.start] using hw
    have hr'' : t.read_commits = n := by simpa [Trace.start] using hrd
    have hf := full_false_of_consistent slot_size slot_count hr' t ht (by rw [hw', hr'']; omega)
    obtain ⟨hst, _⟩ := stage_write_of_consistent slot_size slot_count (by omega) hr' t ht
      (by rw [hw']; exact hn) hf
    refine ⟨t, by simp [run_after_create, create_uninitialised storage _ _ hu, hrun],
      hw', hr'', ?_, by simp [zero_ring_buffer_commit_write, hf]⟩
    rw [hst, hoff, hw']

theorem wraparound_addressing_witness :
    (∃ t, run_after_create blank_storage 4 3 (alternating 6) = some t ∧
      ((t.write_commits : Int) + 1 ≤ SIG_ATOMIC_MAX →
      ∀ w, zero_ring_buffer_stage_write t.region = some (pointer.slot w) →
        (zero_ring_buffer_commit_write t.region).1 = true ∧
        Int.tmod t.region.m_head t.region.m_slot_count =
          ((t.write_commits : Int) + 1) % 3 ∧
        w = (((t.write_commits : Int) + 1) % 3) * 4)) ∧
    (∀ n : Nat, (n : Int) + 1 ≤ SIG_ATOMIC_MAX →
      ∃ t, run_after_create blank_storage 4 3 (alternating n) = some t ∧
      t.write_commits = n ∧ t.read_commits = n ∧
      zero_ring_buffer_stage_write t.region =
        some (pointer.slot ((((n : Int) + 1) % 3) * 4)) ∧
      (zero_ring_buffer_commit_write t.region).1 = true) :=
  wraparound_addressing blank_storage 4 3 (alternating 6) rfl (by decide) (by decide)
    (by decide) ⟨by decide, by decide⟩

/-- C10. Idempotent create: on every initialised region, whatever its
counters, `zero_ring_buffer_create` called with the stored `slot_size` and
`slot_count` does not abort and returns the region unchanged: `head`, `tail`,
`slot_size`, `slot_count`, the initialized flag and the slot bytes. -/
theorem idempotent_create (ring_buffer : zero_ring_buffer)
    (hi : ring_buffer.m_initialized ≠ 0) :
    zero_ring_buffer_create ring_buffer ring_buffer.m_slot_size ring_buffer.m_slot_count =
      some ring_buffer := by
  simp [zero_ring_buffer_create, zero_ring_buffer_attach, hi]

theorem idempotent_create_witness :
    zero_ring_buffer_create sample_region sample_region.m_slot_size
      sample_region.m_slot_count = some sample_region :=
  idempotent_create sample_region (by decide)

/-- C11. Mismatch abort: with `abort()` as the error result,
`zero_ring_buffer_create` fails if and only if the region is already
initialised and the requested `slot_size` or the requested `slot_count`
differs from the stored value; on an uninitialised region it never fails. -/
theorem mismatch_abort (storage : zero_ring_buffer) (slot_size slot_count : Int) :
    (zero_ring_buffer_create storage slot_size slot_count = none ↔
      zero_ring_buffer_initialized storage = true ∧
        (storage.m_slot_size ≠ slot_size ∨ storage.m_slot_count ≠ slot_count)) ∧
    (zero_ring_buffer_initialized storage = false →
      ∃ ring_buffer, zero_ring_buffer_create storage slot_size slot_count = some ring_buffer) := by
  constructor
  · by_cases hi : storage.m_initialized = 0
    · simp [zero_ring_buffer_create, zero_ring_buffer_attach, zero_ring_buffer_initialized, hi]
    · by_cases hm : storage.m_slot_size ≠ slot_size ∨ storage.m_slot_count ≠ slot_count
      · simp [zero_ring_buffer_create, zero_ring_buffer_attach, zero_ring_buffer_initialized,
          hi, hm]
      · simp only [zero_ring_buffer_create, zero_ring_buffer_attach,
          zero_ring_buffer_initialized, hi, hm, if_false, and_false]
        simp
  · intro hi
    have h0 : storage.m_initialized = 0 := by
      simpa [zero_ring_buffer_initialized] using hi
    exact ⟨_, create_uninitialised storage slot_size slot_count h0⟩

theorem mismatch_abort_witness :
    (zero_ring_buffer_create sample_region 4 5 = none ↔
      zero_ring_buffer_initialized sample_region = true ∧
        (sample_region.m_slot_size ≠ 4 ∨ sample_region.m_slot_count ≠ 5)) ∧
    (zero_ring_buffer_initialized sample_region = false →
      ∃ ring_buffer, zero_ring_buffer_create sample_region 4 5 = some ring_buffer) :=
  mismatch_abort sample_region 4 5

/-- C13 as stated fails at the top of the counter range: in a region with
`head = INT_MAX` that is not full, `commit_write` succeeds and leaves
`head = INT_MIN`, not `head + 1`; likewise `commit_read` takes
`tail = INT_MAX` to `INT_MIN`. -/
theorem commit_wraps_at_int_max :
    ((zero_ring_buffer_commit_write late_region).1 = true ∧
      late_region.m_head = 2147483647 ∧
      (zero_ring_buffer_commit_write late_region).2.m_head = -2147483648 ∧
      (zero_ring_buffer_commit_write late_region).2.m_head ≠ late_region.m_head + 1) ∧
    ((zero_ring_buffer_commit_read
        { late_region with m_head := -2147483647, m_tail := 2147483647 }).1 = true ∧
      (zero_ring_buffer_commit_read
        { late_region with m_head := -2147483647, m_tail := 2147483647 }).2.m_tail =
          -2147483648) := by
  refine ⟨⟨by decide, rfl, by decide, by decide⟩, by decide, by decide⟩

/-- C13, amended. Counter ownership in 32-bit arithmetic: in every state a
`commit_write` that finds the buffer not full returns true, adds 1 to `head`
as the machine does (exactly `head + 1` while `head < INT_MAX`, and `INT_MIN`
from `INT_MAX`) and changes no other field (`tail`, `slot_size`, `slot_count`,
the initialized flag, the slot bytes); a `commit_read` that finds it not empty
does the same to `tail`; a commit that finds the buffer full, or empty,
returns false and changes nothing.  Taken as calls through the pointer,
`initialized`, `used`, `available`, `size`, `empty`, `full`, `stage_read` and
`stage_write` return their value and leave the region as it was, so that a
second staging call returns the same slot and a staging step leaves the trace
as it was. -/
theorem counter_ownership (ring_buffer : zero_ring_buffer) (t : Trace) :
    ((zero_ring_buffer_full ring_buffer = false →
        zero_ring_buffer_commit_write ring_buffer =
          (true, { ring_buffer with m_head := wrap (ring_buffer.m_head + 1) })) ∧
      (zero_ring_buffer_full ring_buffer = false → is_sig_atomic_t ring_buffer.m_head →
        ring_buffer.m_head < SIG_ATOMIC_MAX →
        (zero_ring_buffer_commit_write ring_buffer).2.m_head = ring_buffer.m_head + 1) ∧
      (zero_ring_buffer_full ring_buffer = true →
        zero_ring_buffer_commit_write ring_buffer = (false, ring_buffer))) ∧
    ((zero_ring_buffer_empty ring_buffer = false →
        zero_ring_buffer_commit_read ring_buffer =
          (true, { ring_buffer with m_tail := wrap (ring_buffer.m_tail + 1) })) ∧
      (zero_ring_buffer_empty ring_buffer = false → is_sig_atomic_t ring_buffer.m_tail →
        ring_buffer.m_tail < SIG_ATOMIC_MAX →
        (zero_ring_buffer_commit_read ring_buffer).2.m_tail = ring_buffer.m_tail + 1) ∧
      (zero_ring_buffer_empty ring_buffer = true →
        zero_ring_buffer_commit_read ring_buffer = (false, ring_buffer))) ∧
    (Call.zero_ring_buffer_commit_write ring_buffer =
        zero_ring_buffer_commit_write ring_buffer ∧
      Call.zero_ring_buffer_commit_read ring_buffer =
        zero_ring_buffer_commit_read ring_buffer) ∧
    (Call.zero_ring_buffer_initialized ring_buffer =
        (zero_ring_buffer_initialized ring_buffer, ring_buffer) ∧
      Call.zero_ring_buffer_used ring_buffer = (zero_ring_buffer_used ring_buffer, ring_buffer) ∧
      Call.zero_ring_buffer_available ring_buffer =
        (zero_ring_buffer_available ring_buffer, ring_buffer) ∧
      Call.zero_ring_buffer_size ring_buffer = (zero_ring_buffer_size ring_buffer, ring_buffer) ∧
      Call.zero_ring_buffer_empty ring_buffer =
        (zero_ring_buffer_empty ring_buffer, ring_buffer) ∧
      Call.zero_ring_buffer_full ring_buffer =
        (zero_ring_buffer_full ring_buffer, ring_buffer)) ∧
    ((∀ p after, Call.zero_ring_buffer_stage_read ring_buffer = some (p, after) →
        after = ring_buffer ∧ zero_ring_buffer_stage_read ring_buffer = some p ∧
        Call.zero_ring_buffer_stage_read after = some (p, after)) ∧
      (∀ p after, Call.zero_ring_buffer_stage_write ring_buffer = some (p, after) →
        after = ring_buffer ∧ zero_ring_buffer_stage_write ring_buffer = some p ∧
        Call.zero_ring_buffer_stage_write after = some (p, after))) ∧
    ((∀ t', t.step Op.stage_read = some t' → t' = t) ∧
      (∀ t', t.step Op.stage_write = some t' → t' = t)) := by
  refine ⟨⟨?_, ?_, ?_⟩, ⟨?_, ?_, ?_⟩, ⟨rfl, rfl⟩,
    ⟨rfl, rfl, rfl, rfl, rfl, rfl⟩, ⟨?_, ?_⟩, ⟨?_, ?_⟩⟩
  · intro hf
    simp [zero_ring_buffer_commit_write, hf]
  · intro hf hr hlt
    simp only [is_sig_atomic_t, SIG_ATOMIC_MIN, SIG_ATOMIC_MAX] at hr hlt
    simp only [zero_ring_buffer_commit_write, hf, Bool.not_false, if_true]
    exact wrap_of_range _ (by omega) (by omega)
  · intro hf
    simp [zero_ring_buffer_commit_write, hf]
  · intro he
    simp [zero_ring_buffer_commit_read, he]
  · intro he hr hlt
    simp only [is_sig_atomic_t, SIG_ATOMIC_MIN, SIG_ATOMIC_MAX] at hr hlt
    simp only [zero_ring_buffer_commit_read, he, Bool.not_false, if_true]
    exact wrap_of_range _ (by omega) (by omega)
  · intro he
    simp [zero_ring_buffer_commit_read, he]
  · intro p after h
    rw [call_stage_read] at h
    cases hs : zero_ring_buffer_stage_read ring_buffer with
    | none => simp [hs] at h
    | some q =>
        simp only [hs, Option.map_some', Option.some.injEq, Prod.mk.injEq] at h
        obtain ⟨hq, ha⟩ := h
        subst ha
        subst hq
        exact ⟨rfl, rfl, by rw [call_stage_read, hs]; rfl⟩
  · intro p after h
    rw [call_stage_write] at h
    cases hs : zero_ring_buffer_stage_write ring_buffer with
    | none => simp [hs] at h
    | some q =>
        simp only [hs, Option.map_some', Option.some.injEq, Prod.mk.injEq] at h
        obtain ⟨hq, ha⟩ := h
        subst ha
        subst hq
        exact ⟨rfl, rfl, by rw [call_stage_write, hs]; rfl⟩
  · intro t' h
    rw [step_stage_read] at h
    cases hs : zero_ring_buffer_stage_read t.region with
    | none => simp [hs] at h
    | some q => simpa [hs] using h.symm
  · intro t' h
    rw [step_stage_write] at h
    cases hs : zero_ring_buffer_stage_write t.region with
    | none => simp [hs] at h
    | some q => simpa [hs] using h.symm

theorem counter_ownership_witness :
    (zero_ring_buffer_commit_write sample_region).2.m_head = sample_region.m_head + 1 ∧
    (zero_ring_buffer_commit_read sample_region).2.m_tail = sample_region.m_tail + 1 :=
  ⟨(counter_ownership sample_region (Trace.start sample_region)).1.2.1 (by decide)
      ⟨by decide, by decide⟩ (by decide),
    (counter_ownership sample_region (Trace.start sample_region)).2.1.2.1 (by decide)
      ⟨by decide, by decide⟩ (by decide)⟩

theorem wrap_ne_zero (x : Int) (h0 : 0 < x) (h1 : x < 4294967296) : wrap x ≠ 0 := by
  obtain ⟨k, hk, _, _⟩ := wrap_spec x
  rw [hk]
  omega

theorem step_counted (t t' : Trace) (op : Op) (ht : Trace.counted t)
    (h : t.step op = some t') :
    Trace.counted t' ∧ t'.region.m_slot_count = t.region.m_slot_count ∧
      t.write_commits ≤ t'.write_commits ∧ t'.write_commits ≤ t.write_commits + 1 ∧
      t.read_commits ≤ t'.read_commits ∧ t'.read_commits ≤ t.read_commits + 1 := by
  obtain ⟨hh, htl, hle⟩ := ht
  cases op with
  | stage_read =>
      rw [step_stage_read] at h
      cases hs : zero_ring_buffer_stage_read t.region with
      | none => simp [hs] at h
      | some p =>
          have : t' = t := by simpa [hs] using h.symm
          subst this
          exact ⟨⟨hh, htl, hle⟩, rfl, le_refl _, by omega, le_refl _, by omega⟩
  | stage_write =>
      rw [step_stage_write] at h
      cases hs : zero_ring_buffer_stage_write t.region with
      | none => simp [hs] at h
      | some p =>
          have : t' = t := by simpa [hs] using h.symm
          subst this
          exact ⟨⟨hh, htl, hle⟩, rfl, le_refl _, by omega, le_refl _, by omega⟩
  | commit_read =>
      have h' : t' = { t with
          region := (zero_ring_buffer_commit_read t.region).2
          read_commits := t.read_commits +
            (if (zero_ring_buffer_commit_read t.region).1 then 1 else 0) } := by
        simpa [step_commit_read] using h.symm
      subst h'
      by_cases he : zero_ring_buffer_empty t.region = true
      · simp only [Trace.counted, zero_ring_buffer_commit_read, he, Bool.not_true]
        exact ⟨⟨hh, by simpa using htl, by simpa using hle⟩, rfl, le_refl _, by omega,
          by simp, by simp⟩
      · have he' : zero_ring_buffer_empty t.region = false := by simpa using he
        have hu : ¬ (wrap (wrap (t.region.m_head - t.region.m_tail) - 1) = 0) := by
          simpa [zero_ring_buffer_empty, zero_ring_buffer_used] using he
        have hlt : t.read_commits < t.write_commits := by
          rcases Nat.lt_or_eq_of_le hle with hlt | heq
          · exact hlt
          · exfalso
            apply hu
            obtain ⟨k1, hk1, _, _⟩ := wrap_spec ((t.write_commits : Int) + 1)
            obtain ⟨k2, hk2, _, _⟩ := wrap_spec (t.write_commits : Int)
            rw [hh, htl, heq, wrap_sub_wrap_left, hk1, hk2]
            exact wrap_unique _ 0 (k1 - k2) (by ring) (by decide) (by decide)
        simp only [Trace.counted, zero_ring_buffer_commit_read, he', Bool.not_false, if_true]
        refine ⟨⟨hh, ?_, ?_⟩, trivial, le_refl _, by omega, by simp, by simp⟩
        · show wrap (t.region.m_tail + 1) = wrap ((t.read_commits + 1 : Nat) : Int)
          rw [htl, wrap_add_wrap_left]; push_cast; rfl
        · show t.read_commits + 1 ≤ t.write_commits
          omega
  | commit_write =>
      have h' : t' = { t with
          region := (zero_ring_buffer_commit_write t.region).2
          write_commits := t.write_commits +
            (if (zero_ring_buffer_commit_write t.region).1 then 1 else 0) } := by
        simpa [step_commit_write] using h.symm
      subst h'
      by_cases hf : zero_ring_buffer_full t.region = true
      · simp only [Trace.counted, zero_ring_buffer_commit_write, hf, Bool.not_true]
        exact ⟨⟨by simpa using hh, htl, by simpa using hle⟩, rfl, by simp, by simp,
          le_refl _, by omega⟩
      · have hf' : zero_ring_buffer_full t.region = false := by simpa using hf
        simp only [Trace.counted, zero_ring_buffer_commit_write, hf', Bool.not_false, if_true]
        refine ⟨⟨?_, htl, ?_⟩, trivial, by simp, by simp, le_refl _, by omega⟩
        · show wrap (t.region.m_head + 1) = wrap (((t.write_commits + 1 : Nat) : Int) + 1)
          rw [hh, wrap_add_wrap_left]; push_cast; rfl
        · show t.read_commits ≤ t.write_commits + 1
          omega

theorem run_counted (ops : List Op) :
    ∀ t t' : Trace, Trace.counted t → Trace.run ops t = some t' → Trace.counted t' := by
  induction ops with
  | nil =>
      intro t t' ht h
      have : t = t' := by simpa [Trace.run] using h
      exact this ▸ ht
  | cons op ops ih =>
      intro t t' ht h
      cases hs : t.step op with
      | none => simp [Trace.run, hs] at h
      | some t1 =>
          have h1 : Trace.run ops t1 = some t' := by simpa [Trace.run, hs] using h
          exact ih t1 t' (step_counted t t1 op ht hs).1 h1

theorem c_rem_defined (a b : Int) (h0 : b ≠ 0) (h1 : b ≠ -1) :
    c_rem a b = some (Int.tmod a b) := by
  simp [c_rem, h0, h1]

theorem step_defined (t : Trace) (op : Op) (h0 : t.region.m_slot_count ≠ 0)
    (h1 : t.region.m_slot_count ≠ -1) :
    ∃ t', t.step op = some t' ∧ t'.region.m_slot_count = t.region.m_slot_count := by
  cases op with
  | stage_read =>
      refine ⟨t, ?_, rfl⟩
      simp only [step_stage_read, zero_ring_buffer_stage_read, c_rem_defined _ _ h0 h1]
      split <;> rfl
  | stage_write =>
      refine ⟨t, ?_, rfl⟩
      simp only [step_stage_write, zero_ring_buffer_stage_write, c_rem_defined _ _ h0 h1]
      split <;> rfl
  | commit_read =>
      refine ⟨_, step_commit_read t, ?_⟩
      by_cases he : zero_ring_buffer_empty t.region = true <;>
        simp [zero_ring_buffer_commit_read, he]
  | commit_write =>
      refine ⟨_, step_commit_write t, ?_⟩
      by_cases hf : zero_ring_buffer_full t.region = true <;>
        simp [zero_ring_buffer_commit_write, hf]

theorem run_defined (ops : List Op) :
    ∀ t : Trace, t.region.m_slot_count ≠ 0 → t.region.m_slot_count ≠ -1 →
      ∃ t', Trace.run ops t = some t' := by
  induction ops with
  | nil => intro t _ _; exact ⟨t, rfl⟩
  | cons op ops ih =>
      intro t h0 h1
      obtain ⟨t1, hs, hc1⟩ := step_defined t op h0 h1
      obtain ⟨t2, h2⟩ := ih t1 (by rw [hc1]; exact h0) (by rw [hc1]; exact h1)
      exact ⟨t2, by simp [Trace.run, hs, h2]⟩

theorem start_counted (ring_buffer : zero_ring_buffer) (h : ring_buffer.m_head = 1)
    (h' : ring_buffer.m_tail = 0) : Trace.counted (Trace.start ring_buffer) := by
  refine ⟨?_, ?_, le_refl _⟩
  · show ring_buffer.m_head = wrap (((0 : Nat) : Int) + 1)
    rw [h]; decide
  · show ring_buffer.m_tail = wrap ((0 : Nat) : Int)
    rw [h']; decide

theorem run_after_create_counted (storage : zero_ring_buffer) (slot_size slot_count : Int)
    (ops : List Op) (hu : storage.m_initialized = 0) :
    (slot_count ≠ 0 → slot_count ≠ -1 →
      ∃ t, run_after_create storage slot_size slot_count ops = some t) ∧
    ∀ t, run_after_create storage slot_size slot_count ops = some t → Trace.counted t := by
  constructor
  · intro h0 h1
    obtain ⟨t, ht⟩ := run_defined ops
      (Trace.start { storage with
        m_head := 1
        m_tail := 0
        m_slot_size := slot_size
        m_slot_count := slot_count
        m_initialized := 1 }) h0 h1
    exact ⟨t, by simp [run_after_create, create_uninitialised storage _ _ hu, ht]⟩
  · intro t ht
    simp only [run_after_create, create_uninitialised storage _ _ hu, Option.some_bind] at ht
    exact run_counted ops _ t (start_counted _ rfl rfl) ht

theorem used_of_counted (t : Trace) (ht : Trace.counted t) :
    zero_ring_buffer_used t.region = wrap ((t.write_commits : Int) - (t.read_commits : Int)) := by
  obtain ⟨hh, htl, _⟩ := ht
  obtain ⟨k1, hk1, _, _⟩ := wrap_spec ((t.write_commits : Int) + 1)
  obtain ⟨k2, hk2, _, _⟩ := wrap_spec (t.read_commits : Int)
  simp only [zero_ring_buffer_used]
  rw [hh, htl, wrap_sub_wrap_left, hk1, hk2,
    show (t.write_commits : Int) + 1 + k1 * 4294967296 - ((t.read_commits : Int) + k2 * 4294967296)
      - 1 = (t.write_commits : Int) - (t.read_commits : Int) + (k1 - k2) * 4294967296 by ring,
    wrap_shift]

theorem writes_without_slots (n : Nat) :
    ∀ t : Trace, Trace.counted t → t.region.m_slot_count = 0 → t.read_commits = 0 →
      (t.write_commits : Int) + (n : Int) + 1 < 4294967296 →
      ∃ t', Trace.run (List.replicate n Op.commit_write) t = some t' ∧ Trace.counted t' ∧
        t'.region.m_slot_count = 0 ∧ t'.write_commits = t.write_commits + n ∧
        t'.read_commits = 0 := by
  induction n with
  | zero => intro t ht hsc hr _; exact ⟨t, rfl, ht, hsc, rfl, hr⟩
  | succ n ih =>
      intro t ht hsc hr hlt
      have hnf : zero_ring_buffer_full t.region = false := by
        obtain ⟨hh, htl, _⟩ := ht
        simp only [zero_ring_buffer_full, decide_eq_false_iff_not, hsc]
        rw [hh, htl, hr, wrap_sub_wrap_left, wrap_sub_wrap_right]
        exact wrap_ne_zero _ (by push_cast; omega) (by push_cast; omega)
      have hs : t.step Op.commit_write = some { t with
          region := { t.region with m_head := wrap (t.region.m_head + 1) }
          write_commits := t.write_commits + 1 } := by
        rw [step_commit_write]
        simp [zero_ring_buffer_commit_write, hnf]
      obtain ⟨hc1, _⟩ := step_counted t _ Op.commit_write ht hs
      obtain ⟨t', hrun, hc', hsc', hw', hr'⟩ := ih _ hc1 hsc hr (by push_cast at hlt ⊢; omega)
      refine ⟨t', ?_, hc', hsc', ?_, hr'⟩
      · simp only [List.replicate, Trace.run, hs, Option.some_bind]
        exact hrun
      · rw [hw']
        show t.write_commits + 1 + n = t.write_commits + (n + 1)
        omega

theorem writes_without_slots_after_create (slot_size : Int) (n : Nat)
    (h : (n : Int) + 1 < 4294967296) :
    ∃ t, run_after_create blank_storage slot_size 0 (List.replicate n Op.commit_write) =
        some t ∧
      t.write_commits = n ∧ t.read_commits = 0 ∧
      zero_ring_buffer_used t.region = wrap (n : Int) := by
  obtain ⟨t, hrun, hc, _, hw, hr⟩ := writes_without_slots n
    (Trace.start { blank_storage with
      m_head := 1
      m_tail := 0
      m_slot_size := slot_size
      m_slot_count := 0
      m_initialized := 1 }) (start_counted _ rfl rfl) rfl rfl
    (by show ((0 : Nat) : Int) + (n : Int) + 1 < 4294967296; omega)
  have hw' : t.write_commits = n := by simpa [Trace.start] using hw
  refine ⟨t, ?_, hw', hr, ?_⟩
  · simp only [run_after_create, create_uninitialised blank_storage _ _ rfl, Option.some_bind]
    exact hrun
  · rw [used_of_counted t hc, hw', hr]
    simp

/-- C14 as stated fails on 32-bit counters when the block has no slots to bound
them.  `zero_ring_buffer_create` accepts `slot_count = 0`; `full()` is then
false until `head` has gone all the way round, so each of `2^31` calls of
`zero_ring_buffer_commit_write` returns true, none of `commit_read` was made,
and `used()` is `INT_MIN`, not the difference `2^31` of the two counts. -/
theorem used_wraps_without_slots :
    ∃ t, run_after_create blank_storage 4 0 (List.replicate 2147483648 Op.commit_write) =
        some t ∧
      t.write_commits = 2147483648 ∧ t.read_commits = 0 ∧
      zero_ring_buffer_used t.region = -2147483648 ∧
      zero_ring_buffer_used t.region ≠ (t.write_commits : Int) - (t.read_commits : Int) := by
  obtain ⟨t, hrun, hw, hr, hu⟩ := writes_without_slots_after_create 4 2147483648 (by decide)
  have hu' : zero_ring_buffer_used t.region = -2147483648 := by
    rw [hu]
    decide
  refine ⟨t, hrun, hw, hr, hu', ?_⟩
  rw [hu', hw, hr]
  decide

/-- C14, amended. Meaning of `used()` on 32-bit counters: after
`zero_ring_buffer_create` on an uninitialised region and any sequence of
calls, `used()` is the number of `commit_write` calls that returned true minus
the number of `commit_read` calls that returned true, reduced to the range of
`sig_atomic_t`; it is that difference itself whenever the difference is at
most `INT_MAX`, and so in every state reached with `1 <= slot_count`, where
the sequence runs to its end and the difference never exceeds
`slot_count - 1`. -/
theorem used_is_commit_difference (storage : zero_ring_buffer) (slot_size slot_count : Int)
    (ops : List Op) (hu : storage.m_initialized = 0) :
    (slot_count ≠ 0 → slot_count ≠ -1 →
      ∃ t, run_after_create storage slot_size slot_count ops = some t) ∧
    (∀ t, run_after_create storage slot_size slot_count ops = some t →
      t.read_commits ≤ t.write_commits ∧
      zero_ring_buffer_used t.region =
        wrap ((t.write_commits : Int) - (t.read_commits : Int)) ∧
      ((t.write_commits : Int) - (t.read_commits : Int) ≤ SIG_ATOMIC_MAX →
        zero_ring_buffer_used t.region = (t.write_commits : Int) - (t.read_commits : Int) ∧
        zero_ring_buffer_used t.region = ((t.write_commits - t.read_commits : Nat) : Int))) ∧
    (1 ≤ slot_count → slot_count ≤ SIG_ATOMIC_MAX →
      ∃ t, run_after_create storage slot_size slot_count ops = some t ∧
        t.read_commits ≤ t.write_commits ∧
        (t.write_commits : Int) - (t.read_commits : Int) ≤ slot_count - 1 ∧
        zero_ring_buffer_used t.region = (t.write_commits : Int) - (t.read_commits : Int) ∧
        zero_ring_buffer_used t.region = ((t.write_commits - t.read_commits : Nat) : Int)) := by
  obtain ⟨hdef, hcount⟩ := run_after_create_counted storage slot_size slot_count ops hu
  refine ⟨hdef, ?_, ?_⟩
  · intro t ht
    have hc := hcount t ht
    have hle := hc.2.2
    refine ⟨hle, used_of_counted t hc, ?_⟩
    intro hfit
    simp only [SIG_ATOMIC_MAX] at hfit
    have h := used_of_counted t hc
    rw [wrap_of_range _ (by omega) hfit] at h
    exact ⟨h, by rw [h]; omega⟩
  · intro hc hr
    simp only [SIG_ATOMIC_MAX] at hr
    obtain ⟨t, hrun, ht⟩ := run_after_create_consistent storage slot_size slot_count hu hc hr ops
    have h := used_of_consistent slot_size slot_count hr t ht
    obtain ⟨_, _, _, _, _, hle, hub⟩ := ht
    exact ⟨t, hrun, hle, by omega, h, by rw [h]; omega⟩

theorem used_is_commit_difference_witness :
    ((4 : Int) ≠ 0 → (4 : Int) ≠ -1 →
      ∃ t, run_after_create blank_storage 4 4
        [Op.commit_write, Op.stage_read, Op.commit_write, Op.commit_read, Op.commit_read,
          Op.commit_read] = some t) ∧
    (∀ t, run_after_create blank_storage 4 4
        [Op.commit_write, Op.stage_read, Op.commit_write, Op.commit_read, Op.commit_read,
          Op.commit_read] = some t →
      t.read_commits ≤ t.write_commits ∧
      zero_ring_buffer_used t.region =
        wrap ((t.write_commits : Int) - (t.read_commits : Int)) ∧
      ((t.write_commits : Int) - (t.read_commits : Int) ≤ SIG_ATOMIC_MAX →
        zero_ring_buffer_used t.region = (t.write_commits : Int) - (t.read_commits : Int) ∧
        zero_ring_buffer_used t.region = ((t.write_commits - t.read_commits : Nat) : Int))) ∧
    ((1 : Int) ≤ 4 → (4 : Int) ≤ SIG_ATOMIC_MAX →
      ∃ t, run_after_create blank_storage 4 4
        [Op.commit_write, Op.stage_read, Op.commit_write, Op.commit_read, Op.commit_read,
          Op.commit_read] = some t ∧
        t.read_commits ≤ t.write_commits ∧
        (t.write_commits : Int) - (t.read_commits : Int) ≤ 4 - 1 ∧
        zero_ring_buffer_used t.region = (t.write_commits : Int) - (t.read_commits : Int) ∧
        zero_ring_buffer_used t.region = ((t.write_commits - t.read_commits : Nat) : Int)) :=
  used_is_commit_difference blank_storage 4 4
    [Op.commit_write, Op.stage_read, Op.commit_write, Op.commit_read, Op.commit_read,
      Op.commit_read] rfl


theorem destroy_bound (self : RingBuffer) (memory : Memory) (p : Nat)
    (h : self.m_ring_buffer = some p) :
    self.destroy memory =
      ({ m_ring_buffer := none },
        Function.update memory p (zero_ring_buffer_destroy (memory p))) := by
  simp [RingBuffer.destroy, h]

theorem destroy_unbound (self : RingBuffer) (memory : Memory)
    (h : self.m_ring_buffer = none) : self.destroy memory = (self, memory) := by
  simp [RingBuffer.destroy, h]

theorem destroy_unbinds (self : RingBuffer) (memory : Memory) :
    (self.destroy memory).1.m_ring_buffer = none := by
  cases h : self.m_ring_buffer with
  | none => rw [destroy_unbound self memory h]; exact h
  | some p => rw [destroy_bound self memory p h]

theorem destroy_times_succ (n : Nat) (self : RingBuffer) (memory : Memory) :
    RingBuffer.destroy_times (n + 1) self memory = self.destroy memory := by
  induction n generalizing self memory with
  | zero => rfl
  | succ n ih =>
      rw [RingBuffer.destroy_times, ih]
      exact destroy_unbound _ _ (destroy_unbinds self memory)

/-- C15. Typed facade destroy is idempotent: with `RingBuffer<T>` an optional
pointer to a region, `destroy()` on a bound facade applies the engine destroy
to the region, touches no other region and unbinds the pointer; `destroy()` on
an unbound facade changes neither the facade nor the memory; calling
`destroy()` any number of times, once or more, has the effect of calling it
once, the destructor after it changes nothing, and `initialized()` is false
afterwards. -/
theorem facade_destroy_idempotent (self : RingBuffer) (memory : Memory) :
    (∀ p, self.m_ring_buffer = some p →
      (self.destroy memory).1.m_ring_buffer = none ∧
      (self.destroy memory).2 p = zero_ring_buffer_destroy (memory p) ∧
      ∀ q, q ≠ p → (self.destroy memory).2 q = memory q) ∧
    (self.m_ring_buffer = none → self.destroy memory = (self, memory)) ∧
    (∀ n : Nat, RingBuffer.destroy_times (n + 1) self memory = self.destroy memory) ∧
    (self.destroy memory).1.destroy (self.destroy memory).2 = self.destroy memory ∧
    (self.destroy memory).1.destructor (self.destroy memory).2 = (self.destroy memory).2 ∧
    (self.destroy memory).1.initialized (self.destroy memory).2 = false := by
  have hun := destroy_unbinds self memory
  refine ⟨?_, destroy_unbound self memory, fun n => destroy_times_succ n self memory,
    destroy_unbound _ _ hun, ?_, ?_⟩
  · intro p hp
    rw [destroy_bound self memory p hp]
    refine ⟨rfl, by simp, ?_⟩
    intro q hq
    simp [Function.update, hq]
  · simp [RingBuffer.destructor, destroy_unbound _ _ hun]
  · simp [RingBuffer.initialized, hun]

theorem facade_destroy_idempotent_witness :
    (∀ p, (RingBuffer.attach RingBuffer.new 7).m_ring_buffer = some p →
      ((RingBuffer.attach RingBuffer.new 7).destroy sample_memory).1.m_ring_buffer = none ∧
      ((RingBuffer.attach RingBuffer.new 7).destroy sample_memory).2 p =
        zero_ring_buffer_destroy (sample_memory p) ∧
      ∀ q, q ≠ p →
        ((RingBuffer.attach RingBuffer.new 7).destroy sample_memory).2 q = sample_memory q) ∧
    ((RingBuffer.attach RingBuffer.new 7).m_ring_buffer = none →
      (RingBuffer.attach RingBuffer.new 7).destroy sample_memory =
        (RingBuffer.attach RingBuffer.new 7, sample_memory)) ∧
    (∀ n : Nat, RingBuffer.destroy_times (n + 1) (RingBuffer.attach RingBuffer.new 7)
        sample_memory = (RingBuffer.attach RingBuffer.new 7).destroy sample_memory) ∧
    ((RingBuffer.attach RingBuffer.new 7).destroy sample_memory).1.destroy
        ((RingBuffer.attach RingBuffer.new 7).destroy sample_memory).2 =
      (RingBuffer.attach RingBuffer.new 7).destroy sample_memory ∧
    ((RingBuffer.attach RingBuffer.new 7).destroy sample_memory).1.destructor
        ((RingBuffer.attach RingBuffer.new 7).destroy sample_memory).2 =
      ((RingBuffer.attach RingBuffer.new 7).destroy sample_memory).2 ∧
    ((RingBuffer.attach RingBuffer.new 7).destroy sample_memory).1.initialized
        ((RingBuffer.attach RingBuffer.new 7).destroy sample_memory).2 = false :=
  facade_destroy_idempotent (RingBuffer.attach RingBuffer.new 7) sample_memory

theorem wrap_succ_ge (x : Int) (h : x < 2147483647) : x ≤ wrap (x + 1) := by
  by_cases hx : -2147483648 ≤ x + 1
  · rw [wrap_of_range _ hx (by omega)]
    omega
  · have := (wrap_range (x + 1)).1
    omega

/-- C17 as stated fails.  After create on a blank block (four slots of four
bytes), two successful write-commits and one successful read-commit, `head` is
3 although two write-commits were performed; already on the fresh buffer
`head` is 1 with no write-commit at all.  And on 32-bit counters `head` does
decrease: after `2^31 - 2` write and read commit cycles on three slots `head`
is `INT_MAX`, and the next successful `commit_write` makes it `INT_MIN`. -/
theorem head_is_not_the_write_commit_count :
    (∃ t, run_after_create blank_storage 4 4
        [Op.commit_write, Op.commit_write, Op.commit_read] = some t ∧
      t.write_commits = 2 ∧ t.read_commits = 1 ∧ t.region.m_head = 3 ∧
      t.region.m_head ≠ (t.write_commits : Int)) ∧
    (∃ t, run_after_create blank_storage 4 4 [] = some t ∧
      t.write_commits = 0 ∧ t.region.m_head = 1 ∧
      t.region.m_head ≠ (t.write_commits : Int)) ∧
    (∃ t, run_after_create blank_storage 4 3 (alternating 2147483646) = some t ∧
      t.region.m_head = 2147483647 ∧
      (zero_ring_buffer_commit_write t.region).1 = true ∧
      (zero_ring_buffer_commit_write t.region).2.m_head = -2147483648 ∧
      (zero_ring_buffer_commit_write t.region).2.m_head < t.region.m_head) := by
  refine ⟨⟨_, rfl, rfl, rfl, rfl, by decide⟩, ⟨_, rfl, rfl, rfl, by decide⟩, ?_⟩
  obtain ⟨t, hrun, _, _, hh, htl, hss, hsc⟩ := late_state 4 3 (by decide) (by decide) 2147483646
  have hh' : t.region.m_head = 2147483647 := by rw [hh]; decide
  have htl' : t.region.m_tail = 2147483646 := by rw [htl]; decide
  have hf : zero_ring_buffer_full t.region = false := by
    simp only [zero_ring_buffer_full, decide_eq_false_iff_not, hh', htl', hsc]
    decide
  have hw : zero_ring_buffer_commit_write t.region =
      (true, { t.region with m_head := wrap (t.region.m_head + 1) }) := by
    simp [zero_ring_buffer_commit_write, hf]
  have hn : (zero_ring_buffer_commit_write t.region).2.m_head = -2147483648 := by
    rw [hw]
    show wrap (t.region.m_head + 1) = -2147483648
    rw [hh']
    decide
  refine ⟨t, hrun, hh', by rw [hw], hn, ?_⟩
  rw [hn, hh']
  decide

/-- C17, amended. After `zero_ring_buffer_create` on an uninitialised region
and any sequence of stage and commit calls, `head` is one more than the number
of `commit_write` calls that returned true and `tail` is the number of
`commit_read` calls that returned true, each reduced to the range of
`sig_atomic_t`, and exactly so while the count of write-commits is below
`INT_MAX`; the sequence runs to its end whenever `slot_count` is neither zero
nor minus one; and from any state no stage or commit call decreases `head`
while it is below `INT_MAX`, nor `tail` while it is below `INT_MAX`, nor ever
the two counts. -/
theorem counters_are_commit_counts (storage : zero_ring_buffer) (slot_size slot_count : Int)
    (ops : List Op) (hu : storage.m_initialized = 0) :
    (slot_count ≠ 0 → slot_count ≠ -1 →
      ∃ t, run_after_create storage slot_size slot_count ops = some t) ∧
    (∀ t, run_after_create storage slot_size slot_count ops = some t →
      t.region.m_head = wrap ((t.write_commits : Int) + 1) ∧
      t.region.m_tail = wrap (t.read_commits : Int) ∧
      ((t.write_commits : Int) + 1 ≤ SIG_ATOMIC_MAX →
        t.region.m_head = (t.write_commits : Int) + 1) ∧
      ((t.read_commits : Int) ≤ SIG_ATOMIC_MAX →
        t.region.m_tail = (t.read_commits : Int))) ∧
    (∀ (t t' : Trace) (op : Op), t.step op = some t' →
      (t.region.m_head < SIG_ATOMIC_MAX → t.region.m_head ≤ t'.region.m_head) ∧
      (t.region.m_tail < SIG_ATOMIC_MAX → t.region.m_tail ≤ t'.region.m_tail) ∧
      t.write_commits ≤ t'.write_commits ∧ t.read_commits ≤ t'.read_commits) := by
  obtain ⟨hdef, hcount⟩ := run_after_create_counted storage slot_size slot_count ops hu
  simp only [SIG_ATOMIC_MAX]
  refine ⟨hdef, ?_, ?_⟩
  · intro t ht
    obtain ⟨hh, htl, hle⟩ := hcount t ht
    refine ⟨hh, htl, ?_, ?_⟩
    · intro hw
      rw [hh]
      exact wrap_of_range _ (by omega) hw
    · intro hr
      rw [htl]
      exact wrap_of_range _ (by omega) hr
  intro t t' op h
  cases op with
  | stage_read =>
      rw [step_stage_read] at h
      cases hs : zero_ring_buffer_stage_read t.region with
      | none => simp [hs] at h
      | some p =>
          have : t' = t := by simpa [hs] using h.symm
          subst this
          exact ⟨fun _ => le_refl _, fun _ => le_refl _, le_refl _, le_refl _⟩
  | stage_write =>
      rw [step_stage_write] at h
      cases hs : zero_ring_buffer_stage_write t.region with
      | none => simp [hs] at h
      | some p =>
          have : t' = t := by simpa [hs] using h.symm
          subst this
          exact ⟨fun _ => le_refl _, fun _ => le_refl _, le_refl _, le_refl _⟩
  | commit_read =>
      have h' : t' = { t with
          region := (zero_ring_buffer_commit_read t.region).2
          read_commits := t.read_commits +
            (if (zero_ring_buffer_commit_read t.region).1 then 1 else 0) } := by
        simpa [step_commit_read] using h.symm
      subst h'
      by_cases he : zero_ring_buffer_empty t.region = true
      · simp [zero_ring_buffer_commit_read, he]
      · have he' : zero_ring_buffer_empty t.region = false := by simpa using he
        simp only [zero_ring_buffer_commit_read, he', Bool.not_false, if_true]
        exact ⟨fun _ => le_refl _, fun hlt => wrap_succ_ge _ hlt, le_refl _, by simp⟩
  | commit_write =>
      have h' : t' = { t with
          region := (zero_ring_buffer_commit_write t.region).2
          write_commits := t.write_commits +
            (if (zero_ring_buffer_commit_write t.region).1 then 1 else 0) } := by
        simpa [step_commit_write] using h.symm
      subst h'
      by_cases hf : zero_ring_buffer_full t.region = true
      · simp [zero_ring_buffer_commit_write, hf]
      · have hf' : zero_ring_buffer_full t.region = false := by simpa using hf
        simp only [zero_ring_buffer_commit_write, hf', Bool.not_false, if_true]
        exact ⟨fun hlt => wrap_succ_ge _ hlt, fun _ => le_refl _, by simp, le_refl _⟩

theorem counters_are_commit_counts_witness :
    ((4 : Int) ≠ 0 → (4 : Int) ≠ -1 → ∃ t, run_after_create blank_storage 4 4
        [Op.commit_write, Op.commit_write, Op.commit_read] = some t) ∧
    (∀ t, run_after_create blank_storage 4 4
        [Op.commit_write, Op.commit_write, Op.commit_read] = some t →
      t.region.m_head = wrap ((t.write_commits : Int) + 1) ∧
      t.region.m_tail = wrap (t.read_commits : Int) ∧
      ((t.write_commits : Int) + 1 ≤ SIG_ATOMIC_MAX →
        t.region.m_head = (t.write_commits : Int) + 1) ∧
      ((t.read_commits : Int) ≤ SIG_ATOMIC_MAX →
        t.region.m_tail = (t.read_commits : Int))) ∧
    (∀ (t t' : Trace) (op : Op), t.step op = some t' →
      (t.region.m_head < SIG_ATOMIC_MAX → t.region.m_head ≤ t'.region.m_head) ∧
      (t.region.m_tail < SIG_ATOMIC_MAX → t.region.m_tail ≤ t'.region.m_tail) ∧
      t.write_commits ≤ t'.write_commits ∧ t.read_commits ≤ t'.read_commits) :=
  counters_are_commit_counts blank_storage 4 4
    [Op.commit_write, Op.commit_write, Op.commit_read] rfl

theorem full_iff_used_eq_size (ring_buffer : zero_ring_buffer)
    (hr : is_sig_atomic_t ring_buffer.m_slot_count) :
    zero_ring_buffer_full ring_buffer = true ↔
      zero_ring_buffer_used ring_buffer = zero_ring_buffer_size ring_buffer := by
  obtain ⟨h0, h1⟩ := hr
  simp only [SIG_ATOMIC_MIN, SIG_ATOMIC_MAX] at h0 h1
  simp only [zero_ring_buffer_full, zero_ring_buffer_used, zero_ring_buffer_size,
    decide_eq_true_eq]
  obtain ⟨d0, d1⟩ := wrap_range (ring_buffer.m_head - ring_buffer.m_tail)
  obtain ⟨k1, hk1, _, _⟩ := wrap_spec (wrap (ring_buffer.m_head - ring_buffer.m_tail) - 1)
  obtain ⟨k2, hk2, _, _⟩ := wrap_spec (ring_buffer.m_slot_count - 1)
  constructor
  · intro h
    rw [h]
  · intro h
    rw [hk1, hk2] at h
    omega

/-- C18 as stated fails: `zero_ring_buffer_create` accepts `slot_count = 0`,
and in the state it reaches `commit_write` succeeds although `used()` is not
below `size()`; after that commit the buffer counts one unconsumed item, more
than `slot_count - 1`. -/
theorem write_succeeds_at_capacity_without_slots :
    (∃ t, run_after_create blank_storage 4 0 [] = some t ∧
      (zero_ring_buffer_commit_write t.region).1 = true ∧
      ¬ (zero_ring_buffer_used t.region < zero_ring_buffer_size t.region)) ∧
    (∃ t, run_after_create blank_storage 4 0 [Op.commit_write] = some t ∧
      zero_ring_buffer_used t.region = 1 ∧ t.region.m_slot_count - 1 = -1 ∧
      ¬ (zero_ring_buffer_used t.region ≤ t.region.m_slot_count - 1)) :=
  ⟨⟨_, rfl, by decide, by decide⟩, ⟨_, rfl, by decide, by decide, by decide⟩⟩

/-- C18, amended. In every state, whatever the `sig_atomic_t` values of `head`,
`tail` and `slot_count`, `full()` is true if and only if `used() == size()`;
and in every state reached from `zero_ring_buffer_create` with
`slot_count >= 1` by stage and commit calls, `commit_write` succeeds exactly
when `used() < size()`, and `used()`, the number of unconsumed items, is at
most `slot_count - 1`. -/
theorem full_means_capacity_reached (ring_buffer storage : zero_ring_buffer)
    (slot_size slot_count : Int) (ops : List Op)
    (ht : is_sig_atomic_t ring_buffer.m_slot_count)
    (hu : storage.m_initialized = 0) (hc : 1 ≤ slot_count)
    (hr : is_sig_atomic_t slot_count) :
    (zero_ring_buffer_full ring_buffer = true ↔
      zero_ring_buffer_used ring_buffer = zero_ring_buffer_size ring_buffer) ∧
    ∃ t, run_after_create storage slot_size slot_count ops = some t ∧
      ((zero_ring_buffer_commit_write t.region).1 = true ↔
        zero_ring_buffer_used t.region < zero_ring_buffer_size t.region) ∧
      zero_ring_buffer_used t.region ≤ slot_count - 1 ∧
      (t.write_commits : Int) - (t.read_commits : Int) ≤ slot_count - 1 := by
  refine ⟨full_iff_used_eq_size ring_buffer ht, ?_⟩
  have hr' : slot_count ≤ 2147483647 := hr.2
  obtain ⟨t, hrun, hcons⟩ :=
    run_after_create_consistent storage slot_size slot_count hu hc hr' ops
  have hd := full_of_consistent slot_size slot_count hr' t hcons
  have hused := used_of_consistent slot_size slot_count hr' t hcons
  obtain ⟨hi, hss, hsc, hh, htl, hle, hub⟩ := hcons
  have hsize : zero_ring_buffer_size t.region = slot_count - 1 := by
    simp only [zero_ring_buffer_size, hsc]
    exact wrap_of_range _ (by omega) (by omega)
  refine ⟨t, hrun, ?_, ?_, ?_⟩
  · rw [hused, hsize]
    by_cases hf : zero_ring_buffer_full t.region = true
    · have hfe : wrap (t.region.m_head - t.region.m_tail) = t.region.m_slot_count := by
        simpa [zero_ring_buffer_full] using hf
      simp only [zero_ring_buffer_commit_write, hf, Bool.not_true]
      constructor
      · intro h; simp at h
      · intro h; omega
    · have hfe : ¬ (wrap (t.region.m_head - t.region.m_tail) = t.region.m_slot_count) := by
        simpa [zero_ring_buffer_full] using hf
      have hf' : zero_ring_buffer_full t.region = false := by simpa using hf
      simp only [zero_ring_buffer_commit_write, hf', Bool.not_false, if_true, true_iff]
      omega
  · rw [hused]; omega
  · omega

theorem full_means_capacity_reached_witness :
    (zero_ring_buffer_full sample_region = true ↔
      zero_ring_buffer_used sample_region = zero_ring_buffer_size sample_region) ∧
    ∃ t, run_after_create blank_storage 4 4
        [Op.commit_write, Op.commit_write, Op.commit_write, Op.commit_write] = some t ∧
      ((zero_ring_buffer_commit_write t.region).1 = true ↔
        zero_ring_buffer_used t.region < zero_ring_buffer_size t.region) ∧
      zero_ring_buffer_used t.region ≤ 4 - 1 ∧
      (t.write_commits : Int) - (t.read_commits : Int) ≤ 4 - 1 :=
  full_means_capacity_reached sample_region blank_storage 4 4
    [Op.commit_write, Op.commit_write, Op.commit_write, Op.commit_write]
    ⟨by decide, by decide⟩ rfl (by decide) ⟨by decide, by decide⟩

/-- C19 as stated fails on 32-bit offsets and counters.  With
`slot_size = 2^30` and `slot_count = 4`, after one write-commit `stage_write`
returns the offset `2 * 2^30` reduced to `int`, which is `-2^31`, before the
slot region, and `RING_BUFFER_STORAGE_SIZE(2^30, 4)` over a 20-byte header is
20.  With four-byte slots and `slot_count = 3`, after `2^31 - 1` write and
read commit cycles `head` is `INT_MIN` and `stage_write` returns the offset
`-8`. -/
theorem staged_slot_outside_storage :
    (∃ t, run_after_create blank_storage 1073741824 4 [Op.commit_write] = some t ∧
      zero_ring_buffer_stage_write t.region = some (pointer.slot (-2147483648)) ∧
      RING_BUFFER_STORAGE_SIZE 20 1073741824 4 = 20) ∧
    (∃ t, run_after_create blank_storage 4 3 (alternating 2147483647) = some t ∧
      zero_ring_buffer_stage_write t.region = some (pointer.slot (-8)) ∧
      RING_BUFFER_STORAGE_SIZE 20 4 3 = 32) := by
  refine ⟨⟨_, rfl, by decide, by decide⟩, ?_⟩
  obtain ⟨t, hrun, _, _, hh, htl, hss, hsc⟩ := late_state 4 3 (by decide) (by decide) 2147483647
  have hh' : t.region.m_head = -2147483648 := by rw [hh]; decide
  have htl' : t.region.m_tail = 2147483647 := by rw [htl]; decide
  refine ⟨t, hrun, ?_, by decide⟩
  rw [stage_write_congr t.region ⟨1, 4, 3, -2147483648, 2147483647, fun _ => 0⟩ hh' htl' hss hsc]
  decide

/-- C19, amended. Staged slots stay inside the storage block within the range
of `int`: for `slot_size > 0`, `slot_count >= 1` and
`slot_size * slot_count <= INT_MAX`, in every state reached from
`zero_ring_buffer_create` in which `head` has not passed `INT_MAX` (fewer than
`2^31 - 1` write-commits so far), a slot returned by `stage_read` or
`stage_write` sits at a byte offset of the slot region that is
`index * slot_size` for a slot index `0 <= index < slot_count`, with
`0 <= offset` and `offset + slot_size <= slot_size * slot_count`; as the slot
region starts right after the header, the slot ends within the first
`RING_BUFFER_STORAGE_SIZE(slot_size, slot_count)` bytes of the block, which is
`slot_size * slot_count + header_size` when that sum fits `size_t`. -/
theorem staged_slots_inside_storage (storage : zero_ring_buffer)
    (slot_size slot_count : Int) (ops : List Op) (header_size : Nat)
    (hu : storage.m_initialized = 0) (hs : 0 < slot_size) (hc : 1 ≤ slot_count)
    (hp : slot_size * slot_count ≤ SIG_ATOMIC_MAX)
    (hh : (header_size : Int) + slot_size * slot_count < 18446744073709551616) :
    RING_BUFFER_STORAGE_SIZE (header_size : Int) slot_size slot_count =
      slot_size * slot_count + (header_size : Int) ∧
    ∃ t, run_after_create storage slot_size slot_count ops = some t ∧
      ((t.write_commits : Int) + 1 ≤ SIG_ATOMIC_MAX →
      ∀ p, (zero_ring_buffer_stage_read t.region = some (pointer.slot p) ∨
          zero_ring_buffer_stage_write t.region = some (pointer.slot p)) →
        (∃ index : Int, 0 ≤ index ∧ index < slot_count ∧ p = index * slot_size) ∧
        0 ≤ p ∧ p + slot_size ≤ slot_size * slot_count ∧
        (header_size : Int) ≤ (header_size : Int) + p ∧
        (header_size : Int) + p + slot_size ≤
          RING_BUFFER_STORAGE_SIZE (header_size : Int) slot_size slot_count) := by
  simp only [SIG_ATOMIC_MAX] at hp ⊢
  have hprod : 0 ≤ slot_size * slot_count := Int.mul_nonneg (by omega) (by omega)
  have hsc_le : slot_count ≤ slot_size * slot_count := by
    have := Int.mul_le_mul_of_nonneg_right (show 1 ≤ slot_size by omega)
      (show 0 ≤ slot_count by omega)
    linarith
  have hr : slot_count ≤ 2147483647 := by omega
  have hsize : RING_BUFFER_STORAGE_SIZE (header_size : Int) slot_size slot_count =
      slot_size * slot_count + (header_size : Int) := by
    simp only [RING_BUFFER_STORAGE_SIZE]
    rw [wrap_of_range _ (by omega) hp]
    generalize slot_size * slot_count = m at hprod hp hh
    omega
  refine ⟨hsize, ?_⟩
  obtain ⟨t, hrun, ht⟩ := run_after_create_consistent storage slot_size slot_count hu hc hr ops
  refine ⟨t, hrun, ?_⟩
  intro hw
  have key : ∀ c : Int, ∀ p, p = wrap ((c % slot_count) * slot_size) →
      (∃ index : Int, 0 ≤ index ∧ index < slot_count ∧ p = index * slot_size) ∧
      0 ≤ p ∧ p + slot_size ≤ slot_size * slot_count ∧
      (header_size : Int) ≤ (header_size : Int) + p ∧
      (header_size : Int) + p + slot_size ≤
        RING_BUFFER_STORAGE_SIZE (header_size : Int) slot_size slot_count := by
    intro c p hpeq
    have h0 : 0 ≤ c % slot_count := Int.emod_nonneg _ (by omega)
    have h1 : c % slot_count < slot_count := Int.emod_lt_of_pos _ (by omega)
    rw [offset_in_range _ slot_size slot_count (by omega) hp h0 h1] at hpeq
    obtain ⟨ha, hb⟩ := slot_inside _ slot_size slot_count hs h0 h1
    rw [← hpeq] at ha hb
    refine ⟨⟨_, h0, h1, hpeq⟩, ha, hb, by omega, ?_⟩
    rw [hsize]
    omega
  intro p hpp
  rcases hpp with hrd | hwr
  · by_cases he : zero_ring_buffer_empty t.region = true
    · simp [zero_ring_buffer_stage_read, he] at hrd
    · have he' : zero_ring_buffer_empty t.region = false := by simpa using he
      rw [stage_read_of_consistent slot_size slot_count hc hr t ht (by omega) he'] at hrd
      exact key _ p (by simpa using hrd.symm)
  · by_cases hf : zero_ring_buffer_full t.region = true
    · simp [zero_ring_buffer_stage_write, hf] at hwr
    · have hf' : zero_ring_buffer_full t.region = false := by simpa using hf
      rw [(stage_write_of_consistent slot_size slot_count hc hr t ht hw hf').1] at hwr
      exact key _ p (by simpa using hwr.symm)

theorem staged_slots_inside_storage_witness :
    RING_BUFFER_STORAGE_SIZE ((20 : Nat) : Int) 4 4 = 4 * 4 + ((20 : Nat) : Int) ∧
    ∃ t, run_after_create blank_storage 4 4
        [Op.commit_write, Op.commit_write, Op.commit_read, Op.commit_write, Op.commit_write] =
          some t ∧
      ((t.write_commits : Int) + 1 ≤ SIG_ATOMIC_MAX →
      ∀ p, (zero_ring_buffer_stage_read t.region = some (pointer.slot p) ∨
          zero_ring_buffer_stage_write t.region = some (pointer.slot p)) →
        (∃ index : Int, 0 ≤ index ∧ index < 4 ∧ p = index * 4) ∧
        0 ≤ p ∧ p + 4 ≤ 4 * 4 ∧
        ((20 : Nat) : Int) ≤ ((20 : Nat) : Int) + p ∧
        ((20 : Nat) : Int) + p + 4 ≤ RING_BUFFER_STORAGE_SIZE ((20 : Nat) : Int) 4 4) :=
  staged_slots_inside_storage blank_storage 4 4
    [Op.commit_write, Op.commit_write, Op.commit_read, Op.commit_write, Op.commit_write] 20
    rfl (by decide) (by decide) (by decide) (by decide)

theorem wrap_sub_succ_right (h t : Int) : wrap (h - wrap (t + 1)) = wrap (wrap (h - t) - 1) := by
  rw [wrap_sub_wrap_right, wrap_sub_wrap_left]
  congr 1
  ring

/-- C20. Peer commits never disable an enabled operation and commute with
it: in a state with `slot_count >= 2` and `1 <= head - tail <= slot_count`
(the difference as the code computes it, which is the exact one whenever that
lies in the range of `sig_atomic_t`), if `full()` is false then after a
successful `commit_read` it is still false and `stage_write` returns the same
slot as before; if `empty()` is false then after a successful `commit_write`
it is still false and `stage_read` returns the same slot as before; and when
both are false, `commit_write` then `commit_read` and `commit_read` then
`commit_write` all succeed and end in the same state. -/
theorem peer_commits_commute (ring_buffer : zero_ring_buffer)
    (hc : 2 ≤ ring_buffer.m_slot_count)
    (hlo : 1 ≤ wrap (ring_buffer.m_head - ring_buffer.m_tail))
    (hhi : wrap (ring_buffer.m_head - ring_buffer.m_tail) ≤ ring_buffer.m_slot_count) :
    (zero_ring_buffer_full ring_buffer = false →
      (zero_ring_buffer_commit_read ring_buffer).1 = true →
      zero_ring_buffer_full (zero_ring_buffer_commit_read ring_buffer).2 = false ∧
      (∃ p, zero_ring_buffer_stage_write ring_buffer = some (pointer.slot p)) ∧
      zero_ring_buffer_stage_write (zero_ring_buffer_commit_read ring_buffer).2 =
        zero_ring_buffer_stage_write ring_buffer) ∧
    (zero_ring_buffer_empty ring_buffer = false →
      (zero_ring_buffer_commit_write ring_buffer).1 = true →
      zero_ring_buffer_empty (zero_ring_buffer_commit_write ring_buffer).2 = false ∧
      (∃ p, zero_ring_buffer_stage_read ring_buffer = some (pointer.slot p)) ∧
      zero_ring_buffer_stage_read (zero_ring_buffer_commit_write ring_buffer).2 =
        zero_ring_buffer_stage_read ring_buffer) ∧
    (zero_ring_buffer_empty ring_buffer = false → zero_ring_buffer_full ring_buffer = false →
      (zero_ring_buffer_commit_write ring_buffer).1 = true ∧
      (zero_ring_buffer_commit_read (zero_ring_buffer_commit_write ring_buffer).2).1 = true ∧
      (zero_ring_buffer_commit_read ring_buffer).1 = true ∧
      (zero_ring_buffer_commit_write (zero_ring_buffer_commit_read ring_buffer).2).1 = true ∧
      (zero_ring_buffer_commit_read (zero_ring_buffer_commit_write ring_buffer).2).2 =
        (zero_ring_buffer_commit_write (zero_ring_buffer_commit_read ring_buffer).2).2) := by
  have hpos : 1 ≤ ring_buffer.m_slot_count := by omega
  obtain ⟨d0, d1⟩ := wrap_range (ring_buffer.m_head - ring_buffer.m_tail)
  have hdown : wrap (wrap (ring_buffer.m_head - ring_buffer.m_tail) - 1) =
      wrap (ring_buffer.m_head - ring_buffer.m_tail) - 1 :=
    wrap_of_range _ (by omega) (by omega)
  have hf2 : zero_ring_buffer_full
      { ring_buffer with m_tail := wrap (ring_buffer.m_tail + 1) } = false := by
    simp only [zero_ring_buffer_full, decide_eq_false_iff_not]
    rw [wrap_sub_succ_right, hdown]
    omega
  have he2 : zero_ring_buffer_empty
      { ring_buffer with m_head := wrap (ring_buffer.m_head + 1) } = false := by
    simp only [zero_ring_buffer_empty, zero_ring_buffer_used, decide_eq_false_iff_not]
    rw [wrap_sub_succ, wrap_sub_wrap_left,
      show wrap (ring_buffer.m_head - ring_buffer.m_tail) + 1 - 1 =
        wrap (ring_buffer.m_head - ring_buffer.m_tail) by ring, wrap_wrap]
    omega
  refine ⟨?_, ?_, ?_⟩
  · intro hf hr
    have he : zero_ring_buffer_empty ring_buffer = false := by
      by_cases he : zero_ring_buffer_empty ring_buffer = true
      · simp [zero_ring_buffer_commit_read, he] at hr
      · simpa using he
    refine ⟨?_, ?_, ?_⟩
    · simpa [zero_ring_buffer_commit_read, he] using hf2
    · simp [zero_ring_buffer_stage_write, hf, c_rem_of_pos _ _ hpos]
    · simp only [zero_ring_buffer_commit_read, he, Bool.not_false, if_true]
      simp only [zero_ring_buffer_stage_write, hf, hf2]
  · intro he hw
    have hf : zero_ring_buffer_full ring_buffer = false := by
      by_cases hf : zero_ring_buffer_full ring_buffer = true
      · simp [zero_ring_buffer_commit_write, hf] at hw
      · simpa using hf
    refine ⟨?_, ?_, ?_⟩
    · simpa [zero_ring_buffer_commit_write, hf] using he2
    · simp [zero_ring_buffer_stage_read, he, c_rem_of_pos _ _ hpos]
    · simp only [zero_ring_buffer_commit_write, hf, Bool.not_false, if_true]
      simp only [zero_ring_buffer_stage_read, he, he2]
  · intro he hf
    simp [zero_ring_buffer_commit_write, zero_ring_buffer_commit_read, he, hf, he2, hf2]

theorem peer_commits_commute_witness :
    (zero_ring_buffer_full sample_region = false →
      (zero_ring_buffer_commit_read sample_region).1 = true →
      zero_ring_buffer_full (zero_ring_buffer_commit_read sample_region).2 = false ∧
      (∃ p, zero_ring_buffer_stage_write sample_region = some (pointer.slot p)) ∧
      zero_ring_buffer_stage_write (zero_ring_buffer_commit_read sample_region).2 =
        zero_ring_buffer_stage_write sample_region) ∧
    (zero_ring_buffer_empty sample_region = false →
      (zero_ring_buffer_commit_write sample_region).1 = true →
      zero_ring_buffer_empty (zero_ring_buffer_commit_write sample_region).2 = false ∧
      (∃ p, zero_ring_buffer_stage_read sample_region = some (pointer.slot p)) ∧
      zero_ring_buffer_stage_read (zero_ring_buffer_commit_write sample_region).2 =
        zero_ring_buffer_stage_read sample_region) ∧
    (zero_ring_buffer_empty sample_region = false →
      zero_ring_buffer_full sample_region = false →
      (zero_ring_buffer_commit_write sample_region).1 = true ∧
      (zero_ring_buffer_commit_read (zero_ring_buffer_commit_write sample_region).2).1 = true ∧
      (zero_ring_buffer_commit_read sample_region).1 = true ∧
      (zero_ring_buffer_commit_write (zero_ring_buffer_commit_read sample_region).2).1 = true ∧
      (zero_ring_buffer_commit_read (zero_ring_buffer_commit_write sample_region).2).2 =
        (zero_ring_buffer_commit_write (zero_ring_buffer_commit_read sample_region).2).2) :=
  peer_commits_commute sample_region (by decide) (by decide) (by decide)

end Zero
